import Mathlib

/-!
Module linkage record of es2panda (`parser/module/module.cpp`).

A shallow embedding of `SourceTextModuleRecord` and of its mutators, followed by
theorems about them.

Conventions of the embedding.

* A `util::StringView` is a `String`; `Empty()` is equality with `""`.
* An `int` is an `Int`; the sentinel for "no module request" is `-1`.
* The record holds pointers to entries.  Entries are embedded by value: the only
  in-place writes (`ConvertLocalExportsToIndirect`) hit either the entry that is
  being added or entries that leave the Local table in the same call, so a table
  never holds an entry that is written through another table afterwards.
* `ASSERT(c)` aborts the program when `c` is false.  Every mutator therefore
  returns an `Option`; `none` is a failed assertion.
* `std::multimap`/`std::map` are key-ordered node containers.  They are embedded
  as lists of key/value pairs kept in key order, a new pair going to the upper
  bound of its key (the C++11 rule for `multimap::insert`).
-/

namespace SourceTextModuleRecord

/-! ## Entries -/

/-- Modelled from the spec: the struct `ImportEntry` is declared in `module.h`, which is
not part of the sources at hand; its three fields are those that `module.cpp` reads. -/
structure ImportEntry where
  moduleRequestIdx_ : Int
  importName_ : String
  localName_ : String
  deriving DecidableEq

/-- Modelled from the spec: the struct `ExportEntry` is declared in `module.h`, which is
not part of the sources at hand; its four fields are those that `module.cpp` reads and
writes. -/
structure ExportEntry where
  moduleRequestIdx_ : Int
  exportName_ : String
  localName_ : String
  importName_ : String
  deriving DecidableEq

/-! ## Containers -/

/-- Modelled from the spec: `ArenaMultiMap<const util::StringView, T>` (declared outside
`module.cpp`) is a `std::multimap`: pairs in key order, equal keys in insertion order. -/
abbrev ArenaMultiMap (α : Type) := List (String × α)

/-- Modelled from the spec: `ArenaMap<const util::StringView, T>` (declared outside
`module.cpp`) is a `std::map`: pairs in key order, at most one pair for a key. -/
abbrev ArenaMap (α : Type) := List (String × α)

/-- Lexicographic comparison of two character sequences, character by character. -/
def lexLess : List Char → List Char → Bool
  | _, [] => false
  | [], _ :: _ => true
  | a :: as, b :: bs => if a < b then true else if a = b then lexLess as bs else false

/-- Modelled from the spec: `operator<` of `util::StringView` (declared outside
`module.cpp`), the key order of the tables: lexicographic comparison of the characters. -/
def StringView.less (a b : String) : Bool := lexLess a.toList b.toList

/-- The call `multimap::insert(std::make_pair(k, v))`: the pair is linked in at the upper
bound of `k`, that is before the first pair whose key is greater than `k`. -/
def ArenaMultiMap.insert {α : Type} (k : String) (v : α) : ArenaMultiMap α → ArenaMultiMap α
  | [] => [(k, v)]
  | p :: rest =>
    if StringView.less k p.1 then (k, v) :: p :: rest
    else p :: ArenaMultiMap.insert k v rest

/-- The call `find(k)`: the first pair with key `k` (what the lower-bound search of the
standard libraries yields), or `none` for `end()`. -/
def ArenaMultiMap.find {α : Type} (m : ArenaMultiMap α) (k : String) : Option (String × α) :=
  m.find? (fun p => decide (p.1 = k))

/-- The call `equal_range(k)`: the run of pairs with key `k`, in table order. -/
def ArenaMultiMap.equal_range {α : Type} (m : ArenaMultiMap α) (k : String) : List (String × α) :=
  m.filter (fun p => decide (p.1 = k))

/-- The call `erase(range.first, range.second)` for `range = equal_range(k)`. -/
def ArenaMultiMap.erase_range {α : Type} (m : ArenaMultiMap α) (k : String) : ArenaMultiMap α :=
  m.filter (fun p => !decide (p.1 = k))

/-- The call `map::insert(std::make_pair(k, v))`: nothing happens when `k` is bound already.
The result is the new table and the pair the returned iterator points at. -/
def ArenaMap.insert {α : Type} (m : ArenaMap α) (k : String) (v : α) :
    ArenaMap α × (String × α) :=
  match ArenaMultiMap.find m k with
  | some p => (m, p)
  | none => (ArenaMultiMap.insert k v m, (k, v))

/-! ## The record -/

/-- Modelled from the spec: the data members of `SourceTextModuleRecord` are declared in
`module.h`, which is not part of the sources at hand.  The seven tables are those that
`module.cpp` uses; the regular imports and the Local exports are multimaps keyed by local
name, the specifier index is a map. -/
structure Record where
  moduleRequests_ : List String
  moduleRequestsMap_ : ArenaMap Int
  regularImportEntries_ : ArenaMultiMap ImportEntry
  namespaceImportEntries_ : List ImportEntry
  localExportEntries_ : ArenaMultiMap ExportEntry
  indirectExportEntries_ : List ExportEntry
  starExportEntries_ : List ExportEntry
  deriving DecidableEq

/-- Modelled from the spec: a freshly constructed record has seven empty tables. -/
def empty : Record := ⟨[], [], [], [], [], [], []⟩

/-- The macro `ASSERT(c)`: goes on when `c` holds, aborts otherwise. -/
def ASSERT (c : Prop) [Decidable c] : Option Unit :=
  if c then some () else none

/-! ## Operations -/

/-- `SourceTextModuleRecord::AddModuleRequest` (module.cpp 20-29).  The cast of the map
size to `int` is taken as exact: a table of 2^31 specifiers is out of reach. -/
def AddModuleRequest (r : Record) (source : String) : Option (Int × Record) := do
  ASSERT (source ≠ "")
  let moduleRequestsSize : Int := (r.moduleRequestsMap_.length : Int)
  let moduleRequests :=
    if (ArenaMultiMap.find r.moduleRequestsMap_ source).isNone then
      r.moduleRequests_ ++ [source]
    else r.moduleRequests_
  let insertedRes := ArenaMap.insert r.moduleRequestsMap_ source moduleRequestsSize
  pure (insertedRes.2.2,
    { r with moduleRequests_ := moduleRequests, moduleRequestsMap_ := insertedRes.1 })

/-- `SourceTextModuleRecord::CheckDuplicateExports` (module.cpp 107-123): `true` means that
no Local and no Indirect entry carries `exportName`. -/
def CheckDuplicateExports (r : Record) (exportName : String) : Bool :=
  if r.localExportEntries_.any (fun entryUnit => decide (exportName = entryUnit.2.exportName_)) then
    false
  else if r.indirectExportEntries_.any (fun e => decide (exportName = e.exportName_)) then
    false
  else
    true

/-- `SourceTextModuleRecord::AddIndirectExportEntry` (module.cpp 84-95). -/
def AddIndirectExportEntry (r : Record) (entry : ExportEntry) : Option (Bool × Record) := do
  ASSERT (entry.importName_ ≠ "")
  ASSERT (entry.exportName_ ≠ "")
  ASSERT (entry.localName_ = "")
  ASSERT (entry.moduleRequestIdx_ ≠ -1)
  if CheckDuplicateExports r entry.exportName_ then
    pure (true, { r with indirectExportEntries_ := r.indirectExportEntries_ ++ [entry] })
  else
    pure (false, r)

/-- `SourceTextModuleRecord::AddStarExportEntry` (module.cpp 98-105). -/
def AddStarExportEntry (r : Record) (entry : ExportEntry) : Option Record := do
  ASSERT (entry.importName_ = "")
  ASSERT (entry.localName_ = "")
  ASSERT (entry.exportName_ = "")
  ASSERT (entry.moduleRequestIdx_ ≠ -1)
  pure { r with starExportEntries_ := r.starExportEntries_ ++ [entry] }

/-- The overload `ConvertLocalExportsToIndirect(ExportEntry *)` (module.cpp 125-140).  The
entry is written in place, so the entry as the caller sees it afterwards is part of the
result. -/
def ConvertLocalExportsToIndirect_ExportEntry (r : Record) (exportEntry : ExportEntry) :
    Option (Bool × ExportEntry × Record) := do
  ASSERT (exportEntry.localName_ ≠ "")
  match ArenaMultiMap.find r.regularImportEntries_ exportEntry.localName_ with
  | some importEntry => do
    ASSERT (exportEntry.importName_ = "")
    ASSERT (exportEntry.moduleRequestIdx_ = -1)
    ASSERT (importEntry.2.importName_ ≠ "")
    ASSERT (importEntry.2.moduleRequestIdx_ ≠ -1)
    let written : ExportEntry :=
      { exportEntry with
        importName_ := importEntry.2.importName_
        moduleRequestIdx_ := importEntry.2.moduleRequestIdx_
        localName_ := "" }
    match AddIndirectExportEntry r written with
    | some res => pure (res.1, written, res.2)
    | none => none
  | none => pure (false, exportEntry, r)

/-- The loop of `ConvertLocalExportsToIndirect(ImportEntry *)` (module.cpp 151-161) over the
pairs of the matched range; `indirect` is `indirectExportEntries_` so far. -/
def convertRange (importEntry : ImportEntry) :
    List (String × ExportEntry) → List ExportEntry → Option (List ExportEntry)
  | [], indirect => some indirect
  | it :: rest, indirect => do
    ASSERT (it.2.importName_ = "")
    ASSERT (it.2.moduleRequestIdx_ = -1)
    ASSERT (importEntry.importName_ ≠ "")
    ASSERT (importEntry.moduleRequestIdx_ ≠ -1)
    let written : ExportEntry :=
      { it.2 with
        importName_ := importEntry.importName_
        moduleRequestIdx_ := importEntry.moduleRequestIdx_
        localName_ := "" }
    convertRange importEntry rest (indirect ++ [written])

/-- The overload `ConvertLocalExportsToIndirect(ImportEntry *)` (module.cpp 142-163). -/
def ConvertLocalExportsToIndirect_ImportEntry (r : Record) (importEntry : ImportEntry) :
    Option Record := do
  ASSERT (importEntry.localName_ ≠ "")
  let range := ArenaMultiMap.equal_range r.localExportEntries_ importEntry.localName_
  if range = [] then
    pure r
  else
    match convertRange importEntry range r.indirectExportEntries_ with
    | some indirect =>
      pure { r with
        indirectExportEntries_ := indirect
        localExportEntries_ :=
          ArenaMultiMap.erase_range r.localExportEntries_ importEntry.localName_ }
    | none => none

/-- `SourceTextModuleRecord::AddImportEntry` (module.cpp 35-45). -/
def AddImportEntry (r : Record) (entry : ImportEntry) : Option Record := do
  ASSERT (entry.importName_ ≠ "")
  ASSERT (entry.localName_ ≠ "")
  ASSERT (entry.moduleRequestIdx_ ≠ -1)
  ConvertLocalExportsToIndirect_ImportEntry
    { r with
      regularImportEntries_ :=
        ArenaMultiMap.insert entry.localName_ entry r.regularImportEntries_ }
    entry

/-- `SourceTextModuleRecord::AddStarImportEntry` (module.cpp 48-54). -/
def AddStarImportEntry (r : Record) (entry : ImportEntry) : Option Record := do
  ASSERT (entry.localName_ ≠ "")
  ASSERT (entry.importName_ = "")
  ASSERT (entry.moduleRequestIdx_ ≠ -1)
  pure { r with namespaceImportEntries_ := r.namespaceImportEntries_ ++ [entry] }

/-- `SourceTextModuleRecord::AddLocalExportEntry` (module.cpp 61-79). -/
def AddLocalExportEntry (r : Record) (entry : ExportEntry) : Option (Bool × Record) := do
  ASSERT (entry.importName_ = "")
  ASSERT (entry.localName_ ≠ "")
  ASSERT (entry.exportName_ ≠ "")
  ASSERT (entry.moduleRequestIdx_ = -1)
  match ConvertLocalExportsToIndirect_ExportEntry r entry with
  | none => none
  | some (converted, entry, r) =>
    if converted then
      pure (true, r)
    else if CheckDuplicateExports r entry.exportName_ then
      pure (true,
        { r with
          localExportEntries_ :=
            ArenaMultiMap.insert entry.localName_ entry r.localExportEntries_ })
    else
      pure (false, r)

/-- The entry that both conversions write: `e` with the import's `importName_` and
`moduleRequestIdx_`, and with `localName_` cleared. -/
def toIndirect (i : ImportEntry) (e : ExportEntry) : ExportEntry :=
  { e with
    importName_ := i.importName_
    moduleRequestIdx_ := i.moduleRequestIdx_
    localName_ := "" }

/-- The entry-point assertions of `AddImportEntry`. -/
def ImportEntry.WF (e : ImportEntry) : Prop :=
  e.importName_ ≠ "" ∧ e.localName_ ≠ "" ∧ e.moduleRequestIdx_ ≠ -1

/-- The entry-point assertions of `AddStarImportEntry`. -/
def ImportEntry.StarWF (e : ImportEntry) : Prop :=
  e.localName_ ≠ "" ∧ e.importName_ = "" ∧ e.moduleRequestIdx_ ≠ -1

/-- The entry-point assertions of `AddLocalExportEntry`. -/
def ExportEntry.LocalWF (e : ExportEntry) : Prop :=
  e.importName_ = "" ∧ e.localName_ ≠ "" ∧ e.exportName_ ≠ "" ∧ e.moduleRequestIdx_ = -1

/-- The entry-point assertions of `AddIndirectExportEntry`. -/
def ExportEntry.IndirectWF (e : ExportEntry) : Prop :=
  e.importName_ ≠ "" ∧ e.exportName_ ≠ "" ∧ e.localName_ = "" ∧ e.moduleRequestIdx_ ≠ -1

/-- The entry-point assertions of `AddStarExportEntry`. -/
def ExportEntry.StarWF (e : ExportEntry) : Prop :=
  e.importName_ = "" ∧ e.localName_ = "" ∧ e.exportName_ = "" ∧ e.moduleRequestIdx_ ≠ -1

instance (e : ImportEntry) : Decidable e.WF := by unfold ImportEntry.WF; infer_instance
instance (e : ImportEntry) : Decidable e.StarWF := by unfold ImportEntry.StarWF; infer_instance
instance (e : ExportEntry) : Decidable e.LocalWF := by unfold ExportEntry.LocalWF; infer_instance
instance (e : ExportEntry) : Decidable e.IndirectWF := by
  unfold ExportEntry.IndirectWF; infer_instance
instance (e : ExportEntry) : Decidable e.StarWF := by unfold ExportEntry.StarWF; infer_instance

/-- One call of a mutator that runs to its end (no assertion fails). -/
inductive Step : Record → Record → Prop
  | addModuleRequest {r r' : Record} {source : String} {idx : Int} :
      AddModuleRequest r source = some (idx, r') → Step r r'
  | addImportEntry {r r' : Record} {entry : ImportEntry} :
      AddImportEntry r entry = some r' → Step r r'
  | addStarImportEntry {r r' : Record} {entry : ImportEntry} :
      AddStarImportEntry r entry = some r' → Step r r'
  | addLocalExportEntry {r r' : Record} {entry : ExportEntry} {res : Bool} :
      AddLocalExportEntry r entry = some (res, r') → Step r r'
  | addIndirectExportEntry {r r' : Record} {entry : ExportEntry} {res : Bool} :
      AddIndirectExportEntry r entry = some (res, r') → Step r r'
  | addStarExportEntry {r r' : Record} {entry : ExportEntry} :
      AddStarExportEntry r entry = some r' → Step r r'

/-- The record `r'` is what some sequence of mutator calls makes of `r`. -/
def Steps (r r' : Record) : Prop := Relation.ReflTransGen Step r r'

/-- The records that the mutators can build, starting from the empty record. -/
def Reachable (r : Record) : Prop := Steps empty r

/-- The export names of the Local table followed by those of the Indirect sequence. -/
def exportNames (r : Record) : List String :=
  r.localExportEntries_.map (fun p => p.2.exportName_) ++
    r.indirectExportEntries_.map (fun e => e.exportName_)

/-- Key order of a table. -/
def KeySorted {α : Type} (m : List (String × α)) : Prop :=
  m.Pairwise (fun a b => a.1 ≤ b.1)

/-! ## Derived notions used in the statements -/

/-- The record after a conversion triggered by the import `e`. -/
def afterImport (r : Record) (e : ImportEntry) : Record :=
  { r with
    regularImportEntries_ := ArenaMultiMap.insert e.localName_ e r.regularImportEntries_
    indirectExportEntries_ :=
      r.indirectExportEntries_ ++
        (ArenaMultiMap.equal_range r.localExportEntries_ e.localName_).map
          (fun p => toIndirect e p.2)
    localExportEntries_ := ArenaMultiMap.erase_range r.localExportEntries_ e.localName_ }

/-- The record and result of `AddLocalExportEntry` when the regular-import table has no pair
under the entry's local name. -/
def afterLocalExport (r : Record) (e : ExportEntry) : Bool × Record :=
  (CheckDuplicateExports r e.exportName_,
    if CheckDuplicateExports r e.exportName_ then
      { r with
        localExportEntries_ := ArenaMultiMap.insert e.localName_ e r.localExportEntries_ }
    else r)

/-- The record and result of `AddLocalExportEntry` when `find` on the regular-import table
yields the import `i`. -/
def afterConvertedExport (r : Record) (i : ImportEntry) (e : ExportEntry) : Bool × Record :=
  (CheckDuplicateExports r e.exportName_,
    if CheckDuplicateExports r e.exportName_ then
      { r with indirectExportEntries_ := r.indirectExportEntries_ ++ [toIndirect i e] }
    else r)

/-- The result and the record after the import `I` and the local export `E` of the same
local name: the export is refused when its name is taken, and is Indirect otherwise, bound
to the import that `find` yields (the first one under that local name). -/
def afterImportAndExport (r : Record) (I : ImportEntry) (E : ExportEntry) : Bool × Record :=
  (CheckDuplicateExports r E.exportName_,
    if CheckDuplicateExports r E.exportName_ then
      { afterImport r I with
        indirectExportEntries_ :=
          (afterImport r I).indirectExportEntries_ ++
            [toIndirect
              (match ArenaMultiMap.find r.regularImportEntries_ I.localName_ with
                | some p => p.2
                | none => I) E] }
    else afterImport r I)

/-- The shape of the stored entries and the key order of the two multimaps. -/
structure Shape (r : Record) : Prop where
  imports : ∀ p ∈ r.regularImportEntries_, p.2.localName_ = p.1 ∧ p.2.WF
  locals : ∀ p ∈ r.localExportEntries_, p.2.localName_ = p.1 ∧ p.2.LocalWF
  indirects : ∀ e ∈ r.indirectExportEntries_, e.IndirectWF
  stars : ∀ e ∈ r.starExportEntries_, e.StarWF
  namespaces : ∀ e ∈ r.namespaceImportEntries_, e.StarWF
  importsSorted : KeySorted r.regularImportEntries_
  localsSorted : KeySorted r.localExportEntries_

/-- No Local export shares its local name with a regular import. -/
def NoStale (r : Record) : Prop :=
  ∀ p ∈ r.localExportEntries_, ∀ q ∈ r.regularImportEntries_,
    p.2.localName_ ≠ q.2.localName_

/-- The specifier index and the request sequence describe the same numbering. -/
structure RequestsAgree (r : Record) : Prop where
  length_eq : r.moduleRequestsMap_.length = r.moduleRequests_.length
  bound : ∀ p, p ∈ r.moduleRequestsMap_ ↔
    ∃ k : Nat, r.moduleRequests_[k]? = some p.1 ∧ p.2 = (k : Int)

/-- The import `import {x} from` the request 0, of the examples. -/
def importX : ImportEntry := ⟨0, "x", "x"⟩

/-- The local export `export {x}`, of the examples. -/
def exportX : ExportEntry := ⟨-1, "x", "x", ""⟩

/-- The indirect export that `exportX` becomes under `importX`. -/
def indirectX : ExportEntry := ⟨0, "x", "", "x"⟩

/-- The record after `import {x}` and `export {x}`, in either order. -/
def recordImportExportX : Record :=
  { empty with
    regularImportEntries_ := [("x", importX)]
    indirectExportEntries_ := [indirectX] }

/-- The record after `export {x}` alone. -/
def recordExportX : Record :=
  { empty with localExportEntries_ := [("x", exportX)] }

/-- The record after `import {x}` alone. -/
def recordImportX : Record :=
  { empty with regularImportEntries_ := [("x", importX)] }

/-- The local export `export {y as x}`: export name `x`, local name `y`. -/
def exportYasX : ExportEntry := ⟨-1, "x", "y", ""⟩

/-- The local export `export {x as a}`. -/
def exportXasA : ExportEntry := ⟨-1, "a", "x", ""⟩

/-- The local export `export {x as b}`. -/
def exportXasB : ExportEntry := ⟨-1, "b", "x", ""⟩

/-- The record after `export {x as a}` alone. -/
def recordExportXasA : Record :=
  { empty with localExportEntries_ := [("x", exportXasA)] }

/-- The record after `import {x}`, `export {x as a}` and `export {x as b}`. -/
def recordFanOut : Record :=
  { empty with
    regularImportEntries_ := [("x", importX)]
    indirectExportEntries_ := [⟨0, "a", "", "x"⟩, ⟨0, "b", "", "x"⟩] }

/-- The record after the requests `./a.js` and `./b.js`. -/
def recordTwoRequests : Record :=
  { empty with
    moduleRequests_ := ["./a.js", "./b.js"]
    moduleRequestsMap_ := [("./a.js", 0), ("./b.js", 1)] }

/-- The record after the request `./a.js`. -/
def recordOneRequest : Record :=
  { empty with
    moduleRequests_ := ["./a.js"]
    moduleRequestsMap_ := [("./a.js", 0)] }

/-- The four tables that hold imports and module requests are the same in `r` and `r'`. -/
def SameImportsAndRequests (r r' : Record) : Prop :=
  r'.regularImportEntries_ = r.regularImportEntries_ ∧
    r'.namespaceImportEntries_ = r.namespaceImportEntries_ ∧
    r'.moduleRequests_ = r.moduleRequests_ ∧
    r'.moduleRequestsMap_ = r.moduleRequestsMap_

/-- An import entry with two names and the request index `-2`. -/
def importNegativeIdx : ImportEntry := ⟨-2, "x", "x"⟩

/-- An import entry with two names and the request index `-1`. -/
def importUnsetIdx : ImportEntry := ⟨-1, "x", "x"⟩

/-- The star export `export * from` the request 0. -/
def starExport0 : ExportEntry := ⟨0, "", "", ""⟩

/-- The namespace import `import * as x from` the request 0. -/
def namespaceX : ImportEntry := ⟨0, "", "x"⟩

/-- The record after `import * as x` alone. -/
def recordNamespaceX : Record :=
  { empty with namespaceImportEntries_ := [namespaceX] }

/-- The name `name` is the export name of no Local and of no Indirect entry of `r`. -/
def ExportNameFree (r : Record) (name : String) : Prop :=
  (∀ p ∈ r.localExportEntries_, p.2.exportName_ ≠ name) ∧
    ∀ e ∈ r.indirectExportEntries_, e.exportName_ ≠ name

instance (r : Record) (name : String) : Decidable (ExportNameFree r name) := by
  unfold ExportNameFree; infer_instance

/-! ## Container lemmas -/

theorem lexLess_iff : ∀ (l₁ l₂ : List Char), lexLess l₁ l₂ = true ↔ l₁ < l₂
  | _, [] => by
    cases ‹List Char› <;> simp [lexLess]
  | [], b :: bs => by
    simp only [lexLess, true_iff]
    exact List.Lex.nil
  | a :: as, b :: bs => by
    unfold lexLess
    by_cases hab : a < b
    · simp only [hab, if_true, true_iff]
      exact List.Lex.rel hab
    · rw [if_neg hab]
      by_cases heq : a = b
      · subst heq
        rw [if_pos rfl, lexLess_iff as bs]
        exact (List.Lex.cons_iff (r := (· < ·))).symm
      · rw [if_neg heq]
        simp only [Bool.false_eq_true, false_iff]
        intro h
        cases h with
        | cons h => exact heq rfl
        | rel h => exact hab h

theorem StringView.less_iff {a b : String} : StringView.less a b = true ↔ a < b := by
  unfold StringView.less
  rw [lexLess_iff, String.lt_iff_toList_lt]

section Containers

variable {α : Type}

theorem ArenaMultiMap.insert_perm (k : String) (v : α) (m : ArenaMultiMap α) :
    (ArenaMultiMap.insert k v m).Perm ((k, v) :: m) := by
  induction m with
  | nil => exact List.Perm.refl _
  | cons p rest ih =>
    unfold ArenaMultiMap.insert
    split
    · exact List.Perm.refl _
    · exact (List.Perm.cons p ih).trans (List.Perm.swap _ _ _)

theorem ArenaMultiMap.mem_insert {k : String} {v : α} {m : ArenaMultiMap α} {p : String × α} :
    p ∈ ArenaMultiMap.insert k v m ↔ p = (k, v) ∨ p ∈ m := by
  rw [(ArenaMultiMap.insert_perm k v m).mem_iff]; simp

theorem ArenaMultiMap.length_insert (k : String) (v : α) (m : ArenaMultiMap α) :
    (ArenaMultiMap.insert k v m).length = m.length + 1 := by
  rw [(ArenaMultiMap.insert_perm k v m).length_eq]; simp

theorem ArenaMultiMap.insert_sorted {k : String} {v : α} {m : ArenaMultiMap α}
    (h : KeySorted m) : KeySorted (ArenaMultiMap.insert k v m) := by
  induction m with
  | nil => simp [ArenaMultiMap.insert, KeySorted]
  | cons p rest ih =>
    unfold KeySorted at h ih ⊢
    rw [List.pairwise_cons] at h
    unfold ArenaMultiMap.insert
    split
    · rename_i hlt
      rw [StringView.less_iff] at hlt
      refine List.pairwise_cons.2 ⟨?_, List.pairwise_cons.2 h⟩
      intro q hq
      rcases List.mem_cons.1 hq with rfl | hq
      · exact le_of_lt hlt
      · exact le_trans (le_of_lt hlt) (h.1 q hq)
    · rename_i hlt
      rw [StringView.less_iff] at hlt
      refine List.pairwise_cons.2 ⟨?_, ih h.2⟩
      intro q hq
      rcases ArenaMultiMap.mem_insert.1 hq with rfl | hq
      · exact not_lt.1 hlt
      · exact h.1 q hq

theorem ArenaMultiMap.erase_range_sorted {k : String} {m : ArenaMultiMap α}
    (h : KeySorted m) : KeySorted (ArenaMultiMap.erase_range m k) :=
  List.Pairwise.filter _ h

theorem ArenaMultiMap.erase_range_insert (k : String) (v : α) (m : ArenaMultiMap α) :
    ArenaMultiMap.erase_range (ArenaMultiMap.insert k v m) k = ArenaMultiMap.erase_range m k := by
  induction m with
  | nil => simp [ArenaMultiMap.insert, ArenaMultiMap.erase_range]
  | cons p rest ih =>
    unfold ArenaMultiMap.insert
    split
    · simp [ArenaMultiMap.erase_range]
    · unfold ArenaMultiMap.erase_range at ih ⊢
      simp only [List.filter_cons, ih]

theorem ArenaMultiMap.equal_range_insert {k : String} {v : α} {m : ArenaMultiMap α}
    (h : KeySorted m) :
    ArenaMultiMap.equal_range (ArenaMultiMap.insert k v m) k
      = ArenaMultiMap.equal_range m k ++ [(k, v)] := by
  induction m with
  | nil => simp [ArenaMultiMap.insert, ArenaMultiMap.equal_range]
  | cons p rest ih =>
    unfold KeySorted at h ih
    rw [List.pairwise_cons] at h
    unfold ArenaMultiMap.insert
    split
    · rename_i hlt
      rw [StringView.less_iff] at hlt
      have hnone : ∀ q ∈ p :: rest, ¬ q.1 = k := by
        intro q hq hqk
        rcases List.mem_cons.1 hq with rfl | hq
        · exact absurd hlt (by rw [hqk]; exact lt_irrefl _)
        · have := h.1 q hq
          rw [hqk] at this
          exact absurd hlt (not_lt.2 this)
      have hf : List.filter (fun q : String × α => decide (q.1 = k)) (p :: rest) = [] := by
        rw [List.filter_eq_nil_iff]
        intro q hq
        simpa using hnone q hq
      unfold ArenaMultiMap.equal_range
      rw [List.filter_cons, hf]
      simp
    · unfold ArenaMultiMap.equal_range at ih ⊢
      rw [List.filter_cons, ih h.2, List.filter_cons]
      split <;> simp

theorem ArenaMultiMap.find_insert_of_none {k : String} {v : α} {m : ArenaMultiMap α}
    (h : ArenaMultiMap.find m k = none) :
    ArenaMultiMap.find (ArenaMultiMap.insert k v m) k = some (k, v) := by
  induction m with
  | nil => simp [ArenaMultiMap.insert, ArenaMultiMap.find]
  | cons p rest ih =>
    unfold ArenaMultiMap.find at h ih ⊢
    unfold ArenaMultiMap.insert
    rw [List.find?_cons] at h
    split at h
    · exact absurd h (by simp)
    · rename_i hp
      split
      · simp
      · rw [List.find?_cons, hp]
        exact ih h

theorem ArenaMultiMap.find_insert_of_some {k : String} {v : α} {m : ArenaMultiMap α}
    {p : String × α} (hs : KeySorted m) (h : ArenaMultiMap.find m k = some p) :
    ArenaMultiMap.find (ArenaMultiMap.insert k v m) k = some p := by
  induction m with
  | nil => simp [ArenaMultiMap.find] at h
  | cons q rest ih =>
    unfold KeySorted at hs ih
    rw [List.pairwise_cons] at hs
    unfold ArenaMultiMap.find at h ih ⊢
    unfold ArenaMultiMap.insert
    rw [List.find?_cons] at h
    split at h
    · rename_i hq
      have hqk : q.1 = k := by simpa using hq
      have hlt : ¬ StringView.less k q.1 = true := by
        rw [StringView.less_iff, hqk]; exact lt_irrefl _
      rw [if_neg hlt, List.find?_cons, hq]
      exact h
    · rename_i hq
      have hqk : ¬ q.1 = k := by simpa using hq
      have hmem := List.mem_of_find?_eq_some h
      have hpk : p.1 = k := by simpa using List.find?_some h
      have hle : q.1 ≤ k := hpk ▸ hs.1 p hmem
      have hlt : ¬ StringView.less k q.1 = true := by
        rw [StringView.less_iff]; exact not_lt.2 hle
      rw [if_neg hlt, List.find?_cons, hq]
      exact ih hs.2 h

theorem ArenaMultiMap.find_insert_ne {k k' : String} {v : α} {m : ArenaMultiMap α}
    (h : k ≠ k') :
    ArenaMultiMap.find (ArenaMultiMap.insert k v m) k' = ArenaMultiMap.find m k' := by
  induction m with
  | nil => simp [ArenaMultiMap.insert, ArenaMultiMap.find, h]
  | cons p rest ih =>
    unfold ArenaMultiMap.find at ih ⊢
    unfold ArenaMultiMap.insert
    split
    · rw [List.find?_cons]
      simp [h]
    · rw [List.find?_cons, List.find?_cons, ih]

theorem ArenaMultiMap.find_eq_none_iff {k : String} {m : ArenaMultiMap α} :
    ArenaMultiMap.find m k = none ↔ ∀ p ∈ m, p.1 ≠ k := by
  unfold ArenaMultiMap.find
  rw [List.find?_eq_none]
  simp

theorem ArenaMultiMap.find_some_mem {k : String} {m : ArenaMultiMap α} {p : String × α}
    (h : ArenaMultiMap.find m k = some p) : p ∈ m ∧ p.1 = k := by
  unfold ArenaMultiMap.find at h
  exact ⟨List.mem_of_find?_eq_some h, by simpa using List.find?_some h⟩

theorem ArenaMultiMap.erase_range_of_equal_range_nil {k : String} {m : ArenaMultiMap α}
    (h : ArenaMultiMap.equal_range m k = []) : ArenaMultiMap.erase_range m k = m := by
  unfold ArenaMultiMap.equal_range at h
  unfold ArenaMultiMap.erase_range
  rw [List.filter_eq_nil_iff] at h
  rw [List.filter_eq_self]
  intro p hp
  simpa using h p hp

end Containers

/-! ## What each operation computes -/

theorem ASSERT_eq_some {c : Prop} [Decidable c] : ASSERT c = some () ↔ c := by
  unfold ASSERT; split <;> simp [*]

theorem ASSERT_of {c : Prop} [Decidable c] (h : c) : ASSERT c = some () :=
  ASSERT_eq_some.2 h

theorem ASSERT_eq_none {c : Prop} [Decidable c] : ASSERT c = none ↔ ¬ c := by
  unfold ASSERT; split <;> simp [*]

theorem AddIndirectExportEntry_eq (r : Record) {e : ExportEntry} (h : e.IndirectWF) :
    AddIndirectExportEntry r e =
      some (CheckDuplicateExports r e.exportName_,
        if CheckDuplicateExports r e.exportName_ then
          { r with indirectExportEntries_ := r.indirectExportEntries_ ++ [e] }
        else r) := by
  obtain ⟨h1, h2, h3, h4⟩ := h
  unfold AddIndirectExportEntry
  simp only [ASSERT_of h1, ASSERT_of h2, ASSERT_of h3, ASSERT_of h4, Option.bind_eq_bind,
    Option.some_bind, Option.pure_def]
  split <;> simp [*]

theorem AddIndirectExportEntry_wf {r : Record} {e : ExportEntry} {res : Bool × Record}
    (h : AddIndirectExportEntry r e = some res) : e.IndirectWF := by
  unfold AddIndirectExportEntry at h
  by_cases h1 : e.importName_ ≠ ""
  · by_cases h2 : e.exportName_ ≠ ""
    · by_cases h3 : e.localName_ = ""
      · by_cases h4 : e.moduleRequestIdx_ ≠ -1
        · exact ⟨h1, h2, h3, h4⟩
        · simp [ASSERT_of h1, ASSERT_of h2, ASSERT_of h3, ASSERT_eq_none.2 h4] at h
      · simp [ASSERT_of h1, ASSERT_of h2, ASSERT_eq_none.2 h3] at h
    · simp [ASSERT_of h1, ASSERT_eq_none.2 h2] at h
  · simp [ASSERT_eq_none.2 h1] at h

theorem AddStarExportEntry_eq (r : Record) {e : ExportEntry} (h : e.StarWF) :
    AddStarExportEntry r e =
      some { r with starExportEntries_ := r.starExportEntries_ ++ [e] } := by
  obtain ⟨h1, h2, h3, h4⟩ := h
  unfold AddStarExportEntry
  simp only [ASSERT_of h1, ASSERT_of h2, ASSERT_of h3, ASSERT_of h4, Option.bind_eq_bind,
    Option.some_bind, Option.pure_def]

theorem AddStarExportEntry_wf {r r' : Record} {e : ExportEntry}
    (h : AddStarExportEntry r e = some r') : e.StarWF := by
  unfold AddStarExportEntry at h
  by_cases h1 : e.importName_ = ""
  · by_cases h2 : e.localName_ = ""
    · by_cases h3 : e.exportName_ = ""
      · by_cases h4 : e.moduleRequestIdx_ ≠ -1
        · exact ⟨h1, h2, h3, h4⟩
        · simp [ASSERT_of h1, ASSERT_of h2, ASSERT_of h3, ASSERT_eq_none.2 h4] at h
      · simp [ASSERT_of h1, ASSERT_of h2, ASSERT_eq_none.2 h3] at h
    · simp [ASSERT_of h1, ASSERT_eq_none.2 h2] at h
  · simp [ASSERT_eq_none.2 h1] at h

theorem AddStarImportEntry_eq (r : Record) {e : ImportEntry} (h : e.StarWF) :
    AddStarImportEntry r e =
      some { r with namespaceImportEntries_ := r.namespaceImportEntries_ ++ [e] } := by
  obtain ⟨h1, h2, h3⟩ := h
  unfold AddStarImportEntry
  simp only [ASSERT_of h1, ASSERT_of h2, ASSERT_of h3, Option.bind_eq_bind,
    Option.some_bind, Option.pure_def]

theorem AddStarImportEntry_wf {r r' : Record} {e : ImportEntry}
    (h : AddStarImportEntry r e = some r') : e.StarWF := by
  unfold AddStarImportEntry at h
  by_cases h1 : e.localName_ ≠ ""
  · by_cases h2 : e.importName_ = ""
    · by_cases h3 : e.moduleRequestIdx_ ≠ -1
      · exact ⟨h1, h2, h3⟩
      · simp [ASSERT_of h1, ASSERT_of h2, ASSERT_eq_none.2 h3] at h
    · simp [ASSERT_of h1, ASSERT_eq_none.2 h2] at h
  · simp [ASSERT_eq_none.2 h1] at h

theorem convertRange_eq {i : ImportEntry} (hi1 : i.importName_ ≠ "")
    (hi2 : i.moduleRequestIdx_ ≠ -1) :
    ∀ (range : List (String × ExportEntry)) (indirect : List ExportEntry),
      (∀ p ∈ range, p.2.importName_ = "" ∧ p.2.moduleRequestIdx_ = -1) →
      convertRange i range indirect
        = some (indirect ++ range.map (fun p => toIndirect i p.2))
  | [], indirect, _ => by simp [convertRange]
  | it :: rest, indirect, h => by
    have hit := h it (List.mem_cons_self _ _)
    have hrest : ∀ p ∈ rest, p.2.importName_ = "" ∧ p.2.moduleRequestIdx_ = -1 :=
      fun p hp => h p (List.mem_cons_of_mem _ hp)
    unfold convertRange
    simp only [ASSERT_of hit.1, ASSERT_of hit.2, ASSERT_of hi1, ASSERT_of hi2,
      Option.bind_eq_bind, Option.some_bind]
    rw [convertRange_eq hi1 hi2 rest _ hrest]
    simp [toIndirect]

theorem convertRange_some {i : ImportEntry} :
    ∀ (range : List (String × ExportEntry)) (indirect out : List ExportEntry),
      convertRange i range indirect = some out →
      out = indirect ++ range.map (fun p => toIndirect i p.2) ∧
        ∀ p ∈ range, p.2.importName_ = "" ∧ p.2.moduleRequestIdx_ = -1
  | [], indirect, out, h => by
    simp only [convertRange, Option.some.injEq] at h
    simp [h]
  | it :: rest, indirect, out, h => by
    unfold convertRange at h
    by_cases h1 : it.2.importName_ = ""
    · by_cases h2 : it.2.moduleRequestIdx_ = -1
      · by_cases h3 : i.importName_ ≠ ""
        · by_cases h4 : i.moduleRequestIdx_ ≠ -1
          · simp only [ASSERT_of h1, ASSERT_of h2, ASSERT_of h3, ASSERT_of h4,
              Option.bind_eq_bind, Option.some_bind] at h
            obtain ⟨ho, hr⟩ := convertRange_some rest _ out h
            refine ⟨?_, ?_⟩
            · rw [ho]; simp [toIndirect]
            · intro p hp
              rcases List.mem_cons.1 hp with rfl | hp
              · exact ⟨h1, h2⟩
              · exact hr p hp
          · simp [ASSERT_of h1, ASSERT_of h2, ASSERT_of h3, ASSERT_eq_none.2 h4] at h
        · simp [ASSERT_of h1, ASSERT_of h2, ASSERT_eq_none.2 h3] at h
      · simp [ASSERT_of h1, ASSERT_eq_none.2 h2] at h
    · simp [ASSERT_eq_none.2 h1] at h

theorem ConvertLocalExportsToIndirect_ImportEntry_eq (r : Record) {e : ImportEntry}
    (h : e.WF)
    (hl : ∀ p ∈ r.localExportEntries_, p.1 = e.localName_ →
      p.2.importName_ = "" ∧ p.2.moduleRequestIdx_ = -1) :
    ConvertLocalExportsToIndirect_ImportEntry r e =
      some { r with
        indirectExportEntries_ :=
          r.indirectExportEntries_ ++
            (ArenaMultiMap.equal_range r.localExportEntries_ e.localName_).map
              (fun p => toIndirect e p.2)
        localExportEntries_ := ArenaMultiMap.erase_range r.localExportEntries_ e.localName_ } := by
  obtain ⟨h1, h2, h3⟩ := h
  unfold ConvertLocalExportsToIndirect_ImportEntry
  simp only [ASSERT_of h2, Option.bind_eq_bind, Option.some_bind, Option.pure_def]
  split
  · rename_i hnil
    rw [hnil, ArenaMultiMap.erase_range_of_equal_range_nil hnil]
    simp
  · have hrange : ∀ p ∈ ArenaMultiMap.equal_range r.localExportEntries_ e.localName_,
        p.2.importName_ = "" ∧ p.2.moduleRequestIdx_ = -1 := by
      intro p hp
      unfold ArenaMultiMap.equal_range at hp
      rw [List.mem_filter] at hp
      exact hl p hp.1 (by simpa using hp.2)
    rw [convertRange_eq h1 h3 _ _ hrange]

theorem ConvertLocalExportsToIndirect_ImportEntry_some {r r' : Record} {e : ImportEntry}
    (h : ConvertLocalExportsToIndirect_ImportEntry r e = some r') :
    r' = { r with
        indirectExportEntries_ :=
          r.indirectExportEntries_ ++
            (ArenaMultiMap.equal_range r.localExportEntries_ e.localName_).map
              (fun p => toIndirect e p.2)
        localExportEntries_ := ArenaMultiMap.erase_range r.localExportEntries_ e.localName_ } := by
  unfold ConvertLocalExportsToIndirect_ImportEntry at h
  by_cases h2 : e.localName_ ≠ ""
  · simp only [ASSERT_of h2, Option.bind_eq_bind, Option.some_bind, Option.pure_def] at h
    split at h
    · rename_i hnil
      rw [hnil, ArenaMultiMap.erase_range_of_equal_range_nil hnil]
      simp only [Option.some.injEq] at h
      simp [← h]
    · split at h
      · rename_i out hout
        obtain ⟨ho, -⟩ := convertRange_some _ _ _ hout
        simp only [Option.some.injEq] at h
        rw [← h, ho]
      · exact absurd h (by simp)
  · simp [ASSERT_eq_none.2 h2] at h

theorem AddImportEntry_eq (r : Record) {e : ImportEntry} (h : e.WF)
    (hl : ∀ p ∈ r.localExportEntries_, p.1 = e.localName_ →
      p.2.importName_ = "" ∧ p.2.moduleRequestIdx_ = -1) :
    AddImportEntry r e = some (afterImport r e) := by
  have h' := h
  obtain ⟨h1, h2, h3⟩ := h
  unfold AddImportEntry
  simp only [ASSERT_of h1, ASSERT_of h2, ASSERT_of h3, Option.bind_eq_bind, Option.some_bind]
  exact ConvertLocalExportsToIndirect_ImportEntry_eq
    { r with
      regularImportEntries_ := ArenaMultiMap.insert e.localName_ e r.regularImportEntries_ }
    h' hl

theorem AddImportEntry_some {r r' : Record} {e : ImportEntry}
    (h : AddImportEntry r e = some r') : e.WF ∧ r' = afterImport r e := by
  unfold AddImportEntry at h
  by_cases h1 : e.importName_ ≠ ""
  · by_cases h2 : e.localName_ ≠ ""
    · by_cases h3 : e.moduleRequestIdx_ ≠ -1
      · simp only [ASSERT_of h1, ASSERT_of h2, ASSERT_of h3, Option.bind_eq_bind,
          Option.some_bind] at h
        exact ⟨⟨h1, h2, h3⟩, ConvertLocalExportsToIndirect_ImportEntry_some h⟩
      · simp [ASSERT_of h1, ASSERT_of h2, ASSERT_eq_none.2 h3] at h
    · simp [ASSERT_of h1, ASSERT_eq_none.2 h2] at h
  · simp [ASSERT_eq_none.2 h1] at h

theorem AddLocalExportEntry_of_find_none (r : Record) {e : ExportEntry} (h : e.LocalWF)
    (hf : ArenaMultiMap.find r.regularImportEntries_ e.localName_ = none) :
    AddLocalExportEntry r e = some (afterLocalExport r e) := by
  obtain ⟨h1, h2, h3, h4⟩ := h
  unfold AddLocalExportEntry ConvertLocalExportsToIndirect_ExportEntry afterLocalExport
  simp only [ASSERT_of h1, ASSERT_of h2, ASSERT_of h3, ASSERT_of h4, Option.bind_eq_bind,
    Option.some_bind, Option.pure_def, hf]
  cases hc : CheckDuplicateExports r e.exportName_ <;> simp

theorem AddLocalExportEntry_of_find_some (r : Record) {e : ExportEntry} {p : String × ImportEntry}
    (h : e.LocalWF)
    (hf : ArenaMultiMap.find r.regularImportEntries_ e.localName_ = some p)
    (hp1 : p.2.importName_ ≠ "") (hp2 : p.2.moduleRequestIdx_ ≠ -1) :
    AddLocalExportEntry r e = some (afterConvertedExport r p.2 e) := by
  obtain ⟨h1, h2, h3, h4⟩ := h
  have hw : (toIndirect p.2 e).IndirectWF := ⟨hp1, h3, rfl, hp2⟩
  have hind := AddIndirectExportEntry_eq r hw
  unfold toIndirect at hind
  unfold AddLocalExportEntry ConvertLocalExportsToIndirect_ExportEntry afterConvertedExport
  simp only [ASSERT_of h1, ASSERT_of h2, ASSERT_of h3, ASSERT_of h4, ASSERT_of hp1,
    ASSERT_of hp2, Option.bind_eq_bind, Option.some_bind, Option.pure_def, hf, hind]
  cases hc : CheckDuplicateExports r e.exportName_ <;> simp [toIndirect, hc]

theorem AddLocalExportEntry_wf {r : Record} {e : ExportEntry} {res : Bool × Record}
    (h : AddLocalExportEntry r e = some res) : e.LocalWF := by
  unfold AddLocalExportEntry at h
  by_cases h1 : e.importName_ = ""
  · by_cases h2 : e.localName_ ≠ ""
    · by_cases h3 : e.exportName_ ≠ ""
      · by_cases h4 : e.moduleRequestIdx_ = -1
        · exact ⟨h1, h2, h3, h4⟩
        · simp [ASSERT_of h1, ASSERT_of h2, ASSERT_of h3, ASSERT_eq_none.2 h4] at h
      · simp [ASSERT_of h1, ASSERT_of h2, ASSERT_eq_none.2 h3] at h
    · simp [ASSERT_of h1, ASSERT_eq_none.2 h2] at h
  · simp [ASSERT_eq_none.2 h1] at h

theorem AddLocalExportEntry_some {r : Record} {e : ExportEntry} {res : Bool × Record}
    (h : AddLocalExportEntry r e = some res) :
    e.LocalWF ∧
      ((ArenaMultiMap.find r.regularImportEntries_ e.localName_ = none ∧
          res = afterLocalExport r e) ∨
        ∃ p, ArenaMultiMap.find r.regularImportEntries_ e.localName_ = some p ∧
          p.2.importName_ ≠ "" ∧ p.2.moduleRequestIdx_ ≠ -1 ∧
          res = afterConvertedExport r p.2 e) := by
  have hwf := AddLocalExportEntry_wf h
  refine ⟨hwf, ?_⟩
  cases hf : ArenaMultiMap.find r.regularImportEntries_ e.localName_ with
  | none =>
    left
    rw [AddLocalExportEntry_of_find_none r hwf hf] at h
    exact ⟨rfl, (Option.some.inj h).symm⟩
  | some p =>
    right
    by_cases hp1 : p.2.importName_ ≠ ""
    · by_cases hp2 : p.2.moduleRequestIdx_ ≠ -1
      · rw [AddLocalExportEntry_of_find_some r hwf hf hp1 hp2] at h
        exact ⟨p, rfl, hp1, hp2, (Option.some.inj h).symm⟩
      · obtain ⟨h1, h2, h3, h4⟩ := hwf
        unfold AddLocalExportEntry ConvertLocalExportsToIndirect_ExportEntry at h
        simp [ASSERT_of h1, ASSERT_of h2, ASSERT_of h3, ASSERT_of h4, ASSERT_of hp1,
          ASSERT_eq_none.2 hp2, hf] at h
    · obtain ⟨h1, h2, h3, h4⟩ := hwf
      unfold AddLocalExportEntry ConvertLocalExportsToIndirect_ExportEntry at h
      simp [ASSERT_of h1, ASSERT_of h2, ASSERT_of h3, ASSERT_of h4,
        ASSERT_eq_none.2 hp1, hf] at h

theorem CheckDuplicateExports_eq_true {r : Record} {name : String} :
    CheckDuplicateExports r name = true ↔ name ∉ exportNames r := by
  unfold CheckDuplicateExports exportNames
  simp only [List.mem_append, List.mem_map, not_or, not_exists, not_and]
  constructor
  · intro h
    split at h
    · exact absurd h (by simp)
    · rename_i hl
      split at h
      · exact absurd h (by simp)
      · rename_i hi
        simp only [List.any_eq_true, decide_eq_true_eq, not_exists, not_and] at hl hi
        exact ⟨fun p hp he => hl p hp he.symm, fun e he hne => hi e he hne.symm⟩
  · rintro ⟨hl, hi⟩
    have hl' : ¬ (r.localExportEntries_.any
        (fun entryUnit => decide (name = entryUnit.2.exportName_)) = true) := by
      simp only [List.any_eq_true, decide_eq_true_eq, not_exists, not_and]
      exact fun p hp he => hl p hp he.symm
    have hi' : ¬ (r.indirectExportEntries_.any
        (fun e => decide (name = e.exportName_)) = true) := by
      simp only [List.any_eq_true, decide_eq_true_eq, not_exists, not_and]
      exact fun e he hne => hi e he hne.symm
    rw [if_neg hl', if_neg hi']

theorem CheckDuplicateExports_eq_false {r : Record} {name : String} :
    CheckDuplicateExports r name = false ↔ name ∈ exportNames r := by
  rw [← not_iff_not, Bool.not_eq_false, CheckDuplicateExports_eq_true]

theorem AddModuleRequest_of_find_none (r : Record) {source : String} (h : source ≠ "")
    (hf : ArenaMultiMap.find r.moduleRequestsMap_ source = none) :
    AddModuleRequest r source =
      some ((r.moduleRequestsMap_.length : Int),
        { r with
          moduleRequests_ := r.moduleRequests_ ++ [source]
          moduleRequestsMap_ :=
            ArenaMultiMap.insert source (r.moduleRequestsMap_.length : Int)
              r.moduleRequestsMap_ }) := by
  unfold AddModuleRequest ArenaMap.insert
  simp [ASSERT_of h, hf]

theorem AddModuleRequest_of_find_some (r : Record) {source : String} {p : String × Int}
    (h : source ≠ "") (hf : ArenaMultiMap.find r.moduleRequestsMap_ source = some p) :
    AddModuleRequest r source = some (p.2, r) := by
  unfold AddModuleRequest ArenaMap.insert
  simp [ASSERT_of h, hf]

theorem AddModuleRequest_some {r : Record} {source : String} {res : Int × Record}
    (h : AddModuleRequest r source = some res) :
    source ≠ "" ∧
      ((ArenaMultiMap.find r.moduleRequestsMap_ source = none ∧
          res = ((r.moduleRequestsMap_.length : Int),
            { r with
              moduleRequests_ := r.moduleRequests_ ++ [source]
              moduleRequestsMap_ :=
                ArenaMultiMap.insert source (r.moduleRequestsMap_.length : Int)
                  r.moduleRequestsMap_ })) ∨
        ∃ p, ArenaMultiMap.find r.moduleRequestsMap_ source = some p ∧ res = (p.2, r)) := by
  by_cases hs : source ≠ ""
  · refine ⟨hs, ?_⟩
    cases hf : ArenaMultiMap.find r.moduleRequestsMap_ source with
    | none =>
      left
      rw [AddModuleRequest_of_find_none r hs hf] at h
      exact ⟨rfl, (Option.some.inj h).symm⟩
    | some p =>
      right
      rw [AddModuleRequest_of_find_some r hs hf] at h
      exact ⟨p, rfl, (Option.some.inj h).symm⟩
  · unfold AddModuleRequest at h
    simp [ASSERT_eq_none.2 hs] at h

/-! ## Invariants of reachable records -/

theorem Shape.empty_shape : Shape empty := by
  constructor <;> simp [empty, KeySorted]

theorem toIndirect_wf {i : ImportEntry} {e : ExportEntry} (hi1 : i.importName_ ≠ "")
    (hi2 : i.moduleRequestIdx_ ≠ -1) (he : e.exportName_ ≠ "") :
    (toIndirect i e).IndirectWF :=
  ⟨hi1, he, rfl, hi2⟩

theorem Shape.afterImport {r : Record} {e : ImportEntry} (h : Shape r) (he : e.WF) :
    Shape (afterImport r e) where
  imports := by
    intro p hp
    rcases ArenaMultiMap.mem_insert.1 hp with rfl | hp
    · exact ⟨rfl, he⟩
    · exact h.imports p hp
  locals := fun p hp => h.locals p (List.mem_of_mem_filter hp)
  indirects := by
    intro x hx
    rcases List.mem_append.1 hx with hx | hx
    · exact h.indirects x hx
    · obtain ⟨p, hp, rfl⟩ := List.mem_map.1 hx
      exact toIndirect_wf he.1 he.2.2 (h.locals p (List.mem_of_mem_filter hp)).2.2.2.1
  stars := h.stars
  namespaces := h.namespaces
  importsSorted := ArenaMultiMap.insert_sorted h.importsSorted
  localsSorted := ArenaMultiMap.erase_range_sorted h.localsSorted

theorem Shape.afterLocalExport {r : Record} {e : ExportEntry} (h : Shape r)
    (he : e.LocalWF) : Shape (afterLocalExport r e).2 := by
  unfold SourceTextModuleRecord.afterLocalExport
  cases CheckDuplicateExports r e.exportName_
  · exact h
  · refine { h with locals := ?_, localsSorted := ArenaMultiMap.insert_sorted h.localsSorted }
    intro p hp
    rcases ArenaMultiMap.mem_insert.1 hp with rfl | hp
    · exact ⟨rfl, he⟩
    · exact h.locals p hp

theorem Shape.afterConvertedExport {r : Record} {i : ImportEntry} {e : ExportEntry}
    (h : Shape r) (hi1 : i.importName_ ≠ "") (hi2 : i.moduleRequestIdx_ ≠ -1)
    (he : e.LocalWF) : Shape (afterConvertedExport r i e).2 := by
  unfold SourceTextModuleRecord.afterConvertedExport
  cases CheckDuplicateExports r e.exportName_
  · exact h
  · refine { h with indirects := ?_ }
    intro x hx
    rcases List.mem_append.1 hx with hx | hx
    · exact h.indirects x hx
    · rw [List.mem_singleton] at hx
      rw [hx]
      exact toIndirect_wf hi1 hi2 he.2.2.1

theorem Shape.step_shape {r r' : Record} (hstep : Step r r') (h : Shape r) : Shape r' := by
  cases hstep with
  | addModuleRequest hs =>
    obtain ⟨-, ⟨-, hres⟩ | ⟨p, -, hres⟩⟩ := AddModuleRequest_some hs
    · rw [(Prod.mk.inj hres).2]
      exact ⟨h.imports, h.locals, h.indirects, h.stars, h.namespaces, h.importsSorted,
        h.localsSorted⟩
    · rw [(Prod.mk.inj hres).2]; exact h
  | addImportEntry hs =>
    obtain ⟨he, rfl⟩ := AddImportEntry_some hs
    exact h.afterImport he
  | addStarImportEntry hs =>
    have he := AddStarImportEntry_wf hs
    rw [AddStarImportEntry_eq r he] at hs
    rw [← Option.some.inj hs]
    refine { h with namespaces := ?_ }
    intro x hx
    rcases List.mem_append.1 hx with hx | hx
    · exact h.namespaces x hx
    · rw [List.mem_singleton] at hx; rw [hx]; exact he
  | addLocalExportEntry hs =>
    obtain ⟨he, ⟨-, hres⟩ | ⟨p, -, hp1, hp2, hres⟩⟩ := AddLocalExportEntry_some hs
    · have := h.afterLocalExport he
      rw [← hres] at this
      exact this
    · have := h.afterConvertedExport hp1 hp2 he
      rw [← hres] at this
      exact this
  | addIndirectExportEntry hs =>
    have he := AddIndirectExportEntry_wf hs
    rw [AddIndirectExportEntry_eq r he] at hs
    rw [← (Prod.mk.inj (Option.some.inj hs)).2]
    split
    · refine { h with indirects := ?_ }
      intro x hx
      rcases List.mem_append.1 hx with hx | hx
      · exact h.indirects x hx
      · rw [List.mem_singleton] at hx; rw [hx]; exact he
    · exact h
  | addStarExportEntry hs =>
    have he := AddStarExportEntry_wf hs
    rw [AddStarExportEntry_eq r he] at hs
    rw [← Option.some.inj hs]
    refine { h with stars := ?_ }
    intro x hx
    rcases List.mem_append.1 hx with hx | hx
    · exact h.stars x hx
    · rw [List.mem_singleton] at hx; rw [hx]; exact he

theorem Reachable.shape {r : Record} (h : Reachable r) : Shape r := by
  unfold Reachable Steps at h
  induction h with
  | refl => exact Shape.empty_shape
  | tail _ hstep ih => exact Shape.step_shape hstep ih

theorem exportName_toIndirect (i : ImportEntry) (e : ExportEntry) :
    (toIndirect i e).exportName_ = e.exportName_ := rfl

theorem exportNames_afterImport_perm (r : Record) (e : ImportEntry) :
    (exportNames (afterImport r e)).Perm (exportNames r) := by
  unfold exportNames afterImport ArenaMultiMap.equal_range ArenaMultiMap.erase_range
  simp only [List.map_append, List.map_map]
  have hsplit := List.filter_append_perm (fun p : String × ExportEntry => decide (p.1 = e.localName_))
    r.localExportEntries_
  have hmap := hsplit.map (fun p : String × ExportEntry => p.2.exportName_)
  rw [List.map_append] at hmap
  have hfun : ((fun x : ExportEntry => x.exportName_) ∘ fun p : String × ExportEntry =>
      toIndirect e p.2) = fun p : String × ExportEntry => p.2.exportName_ := by
    funext p; rfl
  rw [hfun]
  refine List.Perm.trans ?_ (hmap.append_right _)
  refine List.Perm.trans ?_ (List.perm_append_comm.append_right _)
  rw [List.append_assoc]
  refine List.Perm.append_left _ ?_
  exact List.perm_append_comm

theorem CheckDuplicateExports_afterImport (r : Record) (e : ImportEntry) (name : String) :
    CheckDuplicateExports (afterImport r e) name = CheckDuplicateExports r name := by
  rw [Bool.eq_iff_iff, CheckDuplicateExports_eq_true, CheckDuplicateExports_eq_true,
    (exportNames_afterImport_perm r e).mem_iff]

theorem exportNames_insert_perm (r : Record) (e : ExportEntry) :
    (exportNames
      { r with
        localExportEntries_ :=
          ArenaMultiMap.insert e.localName_ e r.localExportEntries_ }).Perm
      (e.exportName_ :: exportNames r) := by
  unfold exportNames
  exact ((ArenaMultiMap.insert_perm e.localName_ e r.localExportEntries_).map _).append_right _

theorem exportNames_append_indirect (r : Record) (e : ExportEntry) :
    exportNames { r with indirectExportEntries_ := r.indirectExportEntries_ ++ [e] }
      = exportNames r ++ [e.exportName_] := by
  unfold exportNames
  simp

theorem nodup_exportNames_afterLocalExport {r : Record} {e : ExportEntry}
    (h : (exportNames r).Nodup) : (exportNames (afterLocalExport r e).2).Nodup := by
  unfold afterLocalExport
  cases hc : CheckDuplicateExports r e.exportName_
  · exact h
  · simp only [if_true]
    rw [(exportNames_insert_perm r e).nodup_iff]
    exact List.nodup_cons.2 ⟨CheckDuplicateExports_eq_true.1 hc, h⟩

theorem nodup_exportNames_append_indirect {r : Record} {e : ExportEntry}
    (h : (exportNames r).Nodup) (hc : CheckDuplicateExports r e.exportName_ = true) :
    (exportNames
      { r with indirectExportEntries_ := r.indirectExportEntries_ ++ [e] }).Nodup := by
  rw [exportNames_append_indirect, List.perm_append_comm.nodup_iff]
  exact List.nodup_cons.2 ⟨CheckDuplicateExports_eq_true.1 hc, h⟩

theorem nodup_exportNames_afterConvertedExport {r : Record} {i : ImportEntry} {e : ExportEntry}
    (h : (exportNames r).Nodup) : (exportNames (afterConvertedExport r i e).2).Nodup := by
  unfold afterConvertedExport
  cases hc : CheckDuplicateExports r e.exportName_
  · exact h
  · simp only [if_true]
    exact nodup_exportNames_append_indirect (e := toIndirect i e) h hc

theorem nodup_exportNames_step {r r' : Record} (hstep : Step r r')
    (h : (exportNames r).Nodup) : (exportNames r').Nodup := by
  cases hstep with
  | addModuleRequest hs =>
    obtain ⟨-, ⟨-, hres⟩ | ⟨p, -, hres⟩⟩ := AddModuleRequest_some hs
    · rw [(Prod.mk.inj hres).2]; exact h
    · rw [(Prod.mk.inj hres).2]; exact h
  | addImportEntry hs =>
    obtain ⟨-, rfl⟩ := AddImportEntry_some hs
    exact (exportNames_afterImport_perm r _).nodup_iff.2 h
  | addStarImportEntry hs =>
    have he := AddStarImportEntry_wf hs
    rw [AddStarImportEntry_eq r he] at hs
    rw [← Option.some.inj hs]; exact h
  | addLocalExportEntry hs =>
    rename_i entry res
    obtain ⟨-, ⟨-, hres⟩ | ⟨p, -, -, -, hres⟩⟩ := AddLocalExportEntry_some hs
    · have := nodup_exportNames_afterLocalExport (e := entry) h
      rw [← hres] at this
      exact this
    · have := nodup_exportNames_afterConvertedExport (i := p.2) (e := entry) h
      rw [← hres] at this
      exact this
  | addIndirectExportEntry hs =>
    have he := AddIndirectExportEntry_wf hs
    rw [AddIndirectExportEntry_eq r he] at hs
    rw [← (Prod.mk.inj (Option.some.inj hs)).2]
    split
    · rename_i hc
      exact nodup_exportNames_append_indirect h hc
    · exact h
  | addStarExportEntry hs =>
    have he := AddStarExportEntry_wf hs
    rw [AddStarExportEntry_eq r he] at hs
    rw [← Option.some.inj hs]; exact h

theorem Reachable.nodup_exportNames {r : Record} (h : Reachable r) :
    (exportNames r).Nodup := by
  unfold Reachable Steps at h
  induction h with
  | refl => simp [exportNames, empty]
  | tail _ hstep ih => exact nodup_exportNames_step hstep ih

theorem NoStale.step_noStale {r r' : Record} (hshape : Shape r) (hstep : Step r r')
    (h : NoStale r) : NoStale r' := by
  cases hstep with
  | addModuleRequest hs =>
    obtain ⟨-, ⟨-, hres⟩ | ⟨p, -, hres⟩⟩ := AddModuleRequest_some hs
    · rw [(Prod.mk.inj hres).2]; exact h
    · rw [(Prod.mk.inj hres).2]; exact h
  | addImportEntry hs =>
    rename_i entry
    obtain ⟨-, rfl⟩ := AddImportEntry_some hs
    intro p hp q hq
    have hp' : p ∈ r.localExportEntries_ ∧ ¬ p.1 = entry.localName_ := by
      have := List.mem_filter.1 hp
      exact ⟨this.1, by simpa using this.2⟩
    rcases ArenaMultiMap.mem_insert.1 hq with rfl | hq
    · rw [(hshape.locals p hp'.1).1]
      exact hp'.2
    · exact h p hp'.1 q hq
  | addStarImportEntry hs =>
    have he := AddStarImportEntry_wf hs
    rw [AddStarImportEntry_eq r he] at hs
    rw [← Option.some.inj hs]; exact h
  | addLocalExportEntry hs =>
    rename_i entry res
    obtain ⟨-, ⟨hf, hres⟩ | ⟨p, -, -, -, hres⟩⟩ := AddLocalExportEntry_some hs
    · rw [(Prod.mk.inj hres).2]
      split
      · intro p hp q hq
        rcases ArenaMultiMap.mem_insert.1 hp with rfl | hp
        · rw [(hshape.imports q hq).1]
          exact fun heq => ArenaMultiMap.find_eq_none_iff.1 hf q hq heq.symm
        · exact h p hp q hq
      · exact h
    · rw [(Prod.mk.inj hres).2]
      split
      · exact h
      · exact h
  | addIndirectExportEntry hs =>
    have he := AddIndirectExportEntry_wf hs
    rw [AddIndirectExportEntry_eq r he] at hs
    rw [← (Prod.mk.inj (Option.some.inj hs)).2]
    split
    · exact h
    · exact h
  | addStarExportEntry hs =>
    have he := AddStarExportEntry_wf hs
    rw [AddStarExportEntry_eq r he] at hs
    rw [← Option.some.inj hs]; exact h

theorem Reachable.noStale {r : Record} (h : Reachable r) : NoStale r := by
  unfold Reachable Steps at h
  induction h with
  | refl => intro p hp; simp [empty] at hp
  | tail hsteps hstep ih => exact NoStale.step_noStale (Reachable.shape hsteps) hstep ih

theorem Reachable.empty_reachable : Reachable empty := Relation.ReflTransGen.refl

theorem Reachable.step_reachable {r r' : Record} (h : Reachable r) (hs : Step r r') : Reachable r' :=
  Relation.ReflTransGen.tail h hs

theorem reachable_recordExportX : Reachable recordExportX :=
  Reachable.empty_reachable.step_reachable
    (@Step.addLocalExportEntry empty recordExportX exportX true (by decide))

theorem reachable_recordImportX : Reachable recordImportX :=
  Reachable.empty_reachable.step_reachable (@Step.addImportEntry empty recordImportX importX (by decide))

theorem reachable_recordImportExportX : Reachable recordImportExportX :=
  reachable_recordExportX.step_reachable
    (@Step.addImportEntry recordExportX recordImportExportX importX (by decide))

/-! ## Import first or export first -/

theorem afterImport_of_equal_range_nil {r : Record} {e : ImportEntry}
    (h : ArenaMultiMap.equal_range r.localExportEntries_ e.localName_ = []) :
    afterImport r e =
      { r with
        regularImportEntries_ :=
          ArenaMultiMap.insert e.localName_ e r.regularImportEntries_ } := by
  unfold afterImport
  rw [h, ArenaMultiMap.erase_range_of_equal_range_nil h]
  simp

theorem equal_range_nil_of_import {r : Record} {k : String} {p : String × ImportEntry}
    (hshape : Shape r) (hstale : NoStale r)
    (hf : ArenaMultiMap.find r.regularImportEntries_ k = some p) :
    ArenaMultiMap.equal_range r.localExportEntries_ k = [] := by
  obtain ⟨hmem, hkey⟩ := ArenaMultiMap.find_some_mem hf
  unfold ArenaMultiMap.equal_range
  rw [List.filter_eq_nil_iff]
  intro q hq
  simp only [decide_eq_true_eq]
  intro hqk
  apply hstale q hq p hmem
  rw [(hshape.locals q hq).1, (hshape.imports p hmem).1, hqk, hkey]

theorem import_then_export {r : Record} {I : ImportEntry} {E : ExportEntry}
    (hshape : Shape r) (hI : I.WF) (hE : E.LocalWF)
    (hL : E.localName_ = I.localName_) :
    AddLocalExportEntry (afterImport r I) E =
      some (afterImportAndExport r I E) := by
  unfold afterImportAndExport
  cases hf : ArenaMultiMap.find r.regularImportEntries_ I.localName_ with
  | none =>
    have hfind : ArenaMultiMap.find (afterImport r I).regularImportEntries_ E.localName_
        = some (I.localName_, I) := by
      rw [hL]
      exact ArenaMultiMap.find_insert_of_none hf
    rw [AddLocalExportEntry_of_find_some (afterImport r I) hE hfind hI.1 hI.2.2]
    unfold afterConvertedExport
    rw [CheckDuplicateExports_afterImport]
  | some p =>
    have hp := ArenaMultiMap.find_some_mem hf
    have hfind : ArenaMultiMap.find (afterImport r I).regularImportEntries_ E.localName_
        = some p := by
      rw [hL]
      exact ArenaMultiMap.find_insert_of_some hshape.importsSorted hf
    have hpwf := (hshape.imports p hp.1).2
    rw [AddLocalExportEntry_of_find_some (afterImport r I) hE hfind hpwf.1 hpwf.2.2]
    unfold afterConvertedExport
    rw [CheckDuplicateExports_afterImport]

theorem export_then_import {r : Record} {I : ImportEntry} {E : ExportEntry}
    (hshape : Shape r) (hstale : NoStale r) (hI : I.WF) (hE : E.LocalWF)
    (hL : E.localName_ = I.localName_) :
    ∃ res, AddLocalExportEntry r E = some res ∧
      res.1 = CheckDuplicateExports r E.exportName_ ∧
      AddImportEntry res.2 I =
        some (afterImportAndExport r I E).2 := by
  have hlocals : ∀ p ∈ r.localExportEntries_, p.1 = I.localName_ →
      p.2.importName_ = "" ∧ p.2.moduleRequestIdx_ = -1 :=
    fun p hp _ => ⟨(hshape.locals p hp).2.1, (hshape.locals p hp).2.2.2.2⟩
  unfold afterImportAndExport
  cases hf : ArenaMultiMap.find r.regularImportEntries_ I.localName_ with
  | none =>
    have hf' : ArenaMultiMap.find r.regularImportEntries_ E.localName_ = none := by
      rw [hL]; exact hf
    refine ⟨afterLocalExport r E, AddLocalExportEntry_of_find_none r hE hf', rfl, ?_⟩
    unfold afterLocalExport
    cases hc : CheckDuplicateExports r E.exportName_
    · simp only [Bool.false_eq_true, if_false]
      exact AddImportEntry_eq r hI hlocals
    · simp only [if_true]
      rw [AddImportEntry_eq _ hI]
      · unfold afterImport
        simp only [hL, ArenaMultiMap.equal_range_insert hshape.localsSorted,
          ArenaMultiMap.erase_range_insert, List.map_append, List.map_cons, List.map_nil,
          List.append_assoc]
      · intro p hp _
        rcases ArenaMultiMap.mem_insert.1 hp with rfl | hp
        · exact ⟨hE.1, hE.2.2.2⟩
        · exact ⟨(hshape.locals p hp).2.1, (hshape.locals p hp).2.2.2.2⟩
  | some p =>
    have hf' : ArenaMultiMap.find r.regularImportEntries_ E.localName_ = some p := by
      rw [hL]; exact hf
    have hp := ArenaMultiMap.find_some_mem hf
    have hpwf := (hshape.imports p hp.1).2
    refine ⟨afterConvertedExport r p.2 E,
      AddLocalExportEntry_of_find_some r hE hf' hpwf.1 hpwf.2.2, rfl, ?_⟩
    have hnil := equal_range_nil_of_import hshape hstale hf
    unfold afterConvertedExport
    cases hc : CheckDuplicateExports r E.exportName_
    · simp only [Bool.false_eq_true, if_false]
      exact AddImportEntry_eq r hI hlocals
    · simp only [if_true]
      rw [AddImportEntry_eq
        { r with indirectExportEntries_ := r.indirectExportEntries_ ++ [toIndirect p.2 E] }
        hI hlocals]
      unfold afterImport
      simp only [hnil, ArenaMultiMap.erase_range_of_equal_range_nil hnil, List.map_nil,
        List.append_nil]

/-! ## Module requests -/

theorem getElem?_concat_eq_some {l : List String} {s t : String} {k : Nat} :
    (l ++ [s])[k]? = some t ↔ l[k]? = some t ∨ (k = l.length ∧ t = s) := by
  rcases Nat.lt_trichotomy k l.length with hlt | heq | hgt
  · rw [List.getElem?_append_left hlt]
    constructor
    · exact Or.inl
    · rintro (h | ⟨h, -⟩)
      · exact h
      · omega
  · subst heq
    rw [List.getElem?_concat_length, List.getElem?_eq_none (le_refl _)]
    constructor
    · intro h; exact Or.inr ⟨rfl, (Option.some.inj h).symm⟩
    · rintro (h | ⟨-, h⟩)
      · exact absurd h (by simp)
      · rw [h]
  · rw [List.getElem?_eq_none (l := l ++ [s]) (by simp; omega),
      List.getElem?_eq_none (l := l) (by omega)]
    constructor
    · intro h; exact absurd h (by simp)
    · rintro (h | ⟨h, -⟩)
      · exact absurd h (by simp)
      · omega

theorem RequestsAgree.empty_agree : RequestsAgree empty where
  length_eq := rfl
  bound := by intro p; simp [empty]

theorem RequestsAgree.find_none_of_not_mem {r : Record} {s : String} (h : RequestsAgree r)
    (hs : s ∉ r.moduleRequests_) : ArenaMultiMap.find r.moduleRequestsMap_ s = none := by
  rw [ArenaMultiMap.find_eq_none_iff]
  intro p hp hps
  obtain ⟨k, hk, -⟩ := (h.bound p).1 hp
  exact hs (List.mem_iff_getElem?.2 ⟨k, hps ▸ hk⟩)

theorem RequestsAgree.afterFresh {r : Record} {s : String} (h : RequestsAgree r) :
    RequestsAgree
      { r with
        moduleRequests_ := r.moduleRequests_ ++ [s]
        moduleRequestsMap_ :=
          ArenaMultiMap.insert s (r.moduleRequestsMap_.length : Int) r.moduleRequestsMap_ } where
  length_eq := by
    simp only [ArenaMultiMap.length_insert, List.length_append, List.length_singleton]
    rw [h.length_eq]
  bound := by
    intro p
    simp only [ArenaMultiMap.mem_insert, getElem?_concat_eq_some, h.bound p]
    constructor
    · rintro (rfl | ⟨k, hk, hp⟩)
      · exact ⟨r.moduleRequests_.length, Or.inr ⟨rfl, rfl⟩, by simp [h.length_eq]⟩
      · exact ⟨k, Or.inl hk, hp⟩
    · rintro ⟨k, hk | ⟨hk, hs⟩, hp⟩
      · exact Or.inr ⟨k, hk, hp⟩
      · left
        apply Prod.ext
        · exact hs
        · simp only [hp, hk, h.length_eq]

theorem RequestsAgree.step_agree {r r' : Record} (hstep : Step r r') (h : RequestsAgree r) :
    RequestsAgree r' := by
  cases hstep with
  | addModuleRequest hs =>
    obtain ⟨-, ⟨-, hres⟩ | ⟨p, -, hres⟩⟩ := AddModuleRequest_some hs
    · rw [(Prod.mk.inj hres).2]; exact h.afterFresh
    · rw [(Prod.mk.inj hres).2]; exact h
  | addImportEntry hs =>
    obtain ⟨-, rfl⟩ := AddImportEntry_some hs
    exact ⟨h.length_eq, h.bound⟩
  | addStarImportEntry hs =>
    have he := AddStarImportEntry_wf hs
    rw [AddStarImportEntry_eq r he] at hs
    rw [← Option.some.inj hs]; exact ⟨h.length_eq, h.bound⟩
  | addLocalExportEntry hs =>
    rename_i entry res
    obtain ⟨-, ⟨-, hres⟩ | ⟨p, -, -, -, hres⟩⟩ := AddLocalExportEntry_some hs
    · rw [(Prod.mk.inj hres).2]
      split
      · exact ⟨h.length_eq, h.bound⟩
      · exact h
    · rw [(Prod.mk.inj hres).2]
      split
      · exact ⟨h.length_eq, h.bound⟩
      · exact h
  | addIndirectExportEntry hs =>
    have he := AddIndirectExportEntry_wf hs
    rw [AddIndirectExportEntry_eq r he] at hs
    rw [← (Prod.mk.inj (Option.some.inj hs)).2]
    split
    · exact ⟨h.length_eq, h.bound⟩
    · exact h
  | addStarExportEntry hs =>
    have he := AddStarExportEntry_wf hs
    rw [AddStarExportEntry_eq r he] at hs
    rw [← Option.some.inj hs]; exact ⟨h.length_eq, h.bound⟩

theorem Reachable.requestsAgree {r : Record} (h : Reachable r) : RequestsAgree r := by
  unfold Reachable Steps at h
  induction h with
  | refl => exact RequestsAgree.empty_agree
  | tail _ hstep ih => exact RequestsAgree.step_agree hstep ih

theorem moduleRequestsMap_step {r r' : Record} (hstep : Step r r') :
    r'.moduleRequestsMap_ = r.moduleRequestsMap_ ∨
      ∃ s, ArenaMultiMap.find r.moduleRequestsMap_ s = none ∧
        r'.moduleRequestsMap_ =
          ArenaMultiMap.insert s (r.moduleRequestsMap_.length : Int) r.moduleRequestsMap_ := by
  cases hstep with
  | addModuleRequest hs =>
    rename_i source idx
    obtain ⟨-, ⟨hf, hres⟩ | ⟨p, -, hres⟩⟩ := AddModuleRequest_some hs
    · right
      exact ⟨source, hf, by rw [(Prod.mk.inj hres).2]⟩
    · left; rw [(Prod.mk.inj hres).2]
  | addImportEntry hs =>
    obtain ⟨-, rfl⟩ := AddImportEntry_some hs
    exact Or.inl rfl
  | addStarImportEntry hs =>
    have he := AddStarImportEntry_wf hs
    rw [AddStarImportEntry_eq r he] at hs
    rw [← Option.some.inj hs]; exact Or.inl rfl
  | addLocalExportEntry hs =>
    rename_i entry res
    obtain ⟨-, ⟨-, hres⟩ | ⟨p, -, -, -, hres⟩⟩ := AddLocalExportEntry_some hs
    · rw [(Prod.mk.inj hres).2]
      split <;> exact Or.inl rfl
    · rw [(Prod.mk.inj hres).2]
      split <;> exact Or.inl rfl
  | addIndirectExportEntry hs =>
    have he := AddIndirectExportEntry_wf hs
    rw [AddIndirectExportEntry_eq r he] at hs
    rw [← (Prod.mk.inj (Option.some.inj hs)).2]
    split <;> exact Or.inl rfl
  | addStarExportEntry hs =>
    have he := AddStarExportEntry_wf hs
    rw [AddStarExportEntry_eq r he] at hs
    rw [← Option.some.inj hs]; exact Or.inl rfl

theorem find_moduleRequestsMap_step {r r' : Record} {s : String} {p : String × Int}
    (hstep : Step r r') (h : ArenaMultiMap.find r.moduleRequestsMap_ s = some p) :
    ArenaMultiMap.find r'.moduleRequestsMap_ s = some p := by
  rcases moduleRequestsMap_step hstep with heq | ⟨s', hnone, heq⟩
  · rw [heq]; exact h
  · rw [heq]
    have hne : s' ≠ s := by
      intro hss
      rw [hss, h] at hnone
      exact absurd hnone (by simp)
    rw [ArenaMultiMap.find_insert_ne hne]
    exact h

theorem find_moduleRequestsMap_steps {r r' : Record} {s : String} {p : String × Int}
    (hsteps : Steps r r') (h : ArenaMultiMap.find r.moduleRequestsMap_ s = some p) :
    ArenaMultiMap.find r'.moduleRequestsMap_ s = some p := by
  unfold Steps at hsteps
  induction hsteps with
  | refl => exact h
  | tail _ hstep ih => exact find_moduleRequestsMap_step hstep ih

theorem find_moduleRequestsMap_of_call {r r' : Record} {s : String} {idx : Int}
    (h : AddModuleRequest r s = some (idx, r')) :
    ∃ p, ArenaMultiMap.find r'.moduleRequestsMap_ s = some p ∧ p.2 = idx := by
  obtain ⟨-, ⟨hf, hres⟩ | ⟨p, hf, hres⟩⟩ := AddModuleRequest_some h
  · refine ⟨(s, idx), ?_, rfl⟩
    rw [(Prod.mk.inj hres).2, (Prod.mk.inj hres).1]
    exact ArenaMultiMap.find_insert_of_none hf
  · refine ⟨p, ?_, (Prod.mk.inj hres).1.symm⟩
    rw [(Prod.mk.inj hres).2]
    exact hf

theorem exportNameFree_iff {r : Record} {name : String} :
    ExportNameFree r name ↔ name ∉ exportNames r := by
  unfold ExportNameFree exportNames
  simp only [List.mem_append, List.mem_map, not_or, not_exists, not_and]

theorem reachable_recordExportXasA : Reachable recordExportXasA :=
  Reachable.empty_reachable.step_reachable
    (@Step.addLocalExportEntry empty recordExportXasA exportXasA true (by decide))

/-! ## More on module requests -/

theorem requests_step {r r' : Record} (hstep : Step r r') :
    (r'.moduleRequests_ = r.moduleRequests_ ∧
        r'.moduleRequestsMap_ = r.moduleRequestsMap_) ∨
      ∃ s, ArenaMultiMap.find r.moduleRequestsMap_ s = none ∧
        r'.moduleRequests_ = r.moduleRequests_ ++ [s] ∧
        r'.moduleRequestsMap_ =
          ArenaMultiMap.insert s (r.moduleRequestsMap_.length : Int) r.moduleRequestsMap_ := by
  cases hstep with
  | addModuleRequest hs =>
    rename_i source idx
    obtain ⟨-, ⟨hf, hres⟩ | ⟨p, -, hres⟩⟩ := AddModuleRequest_some hs
    · right
      refine ⟨source, hf, ?_, ?_⟩ <;> rw [(Prod.mk.inj hres).2]
    · left; rw [(Prod.mk.inj hres).2]; exact ⟨rfl, rfl⟩
  | addImportEntry hs =>
    obtain ⟨-, rfl⟩ := AddImportEntry_some hs
    exact Or.inl ⟨rfl, rfl⟩
  | addStarImportEntry hs =>
    have he := AddStarImportEntry_wf hs
    rw [AddStarImportEntry_eq r he] at hs
    rw [← Option.some.inj hs]; exact Or.inl ⟨rfl, rfl⟩
  | addLocalExportEntry hs =>
    rename_i entry res
    obtain ⟨-, ⟨-, hres⟩ | ⟨p, -, -, -, hres⟩⟩ := AddLocalExportEntry_some hs
    · rw [(Prod.mk.inj hres).2]
      split <;> exact Or.inl ⟨rfl, rfl⟩
    · rw [(Prod.mk.inj hres).2]
      split <;> exact Or.inl ⟨rfl, rfl⟩
  | addIndirectExportEntry hs =>
    have he := AddIndirectExportEntry_wf hs
    rw [AddIndirectExportEntry_eq r he] at hs
    rw [← (Prod.mk.inj (Option.some.inj hs)).2]
    split <;> exact Or.inl ⟨rfl, rfl⟩
  | addStarExportEntry hs =>
    have he := AddStarExportEntry_wf hs
    rw [AddStarExportEntry_eq r he] at hs
    rw [← Option.some.inj hs]; exact Or.inl ⟨rfl, rfl⟩

theorem RequestsAgree.not_mem_of_find_none {r : Record} {s : String} (h : RequestsAgree r)
    (hf : ArenaMultiMap.find r.moduleRequestsMap_ s = none) : s ∉ r.moduleRequests_ := by
  intro hmem
  obtain ⟨k, hk⟩ := List.mem_iff_getElem?.1 hmem
  have hp : (s, (k : Int)) ∈ r.moduleRequestsMap_ := (h.bound (s, (k : Int))).2 ⟨k, hk, rfl⟩
  exact ArenaMultiMap.find_eq_none_iff.1 hf _ hp rfl

theorem nodup_moduleRequests_step {r r' : Record} (hagree : RequestsAgree r)
    (hstep : Step r r') (h : r.moduleRequests_.Nodup) : r'.moduleRequests_.Nodup := by
  rcases requests_step hstep with ⟨hseq, -⟩ | ⟨s, hf, hseq, -⟩
  · rw [hseq]; exact h
  · rw [hseq]
    refine List.Nodup.append h (List.nodup_singleton s) ?_
    intro x hx hxs
    rw [List.mem_singleton] at hxs
    exact hagree.not_mem_of_find_none hf (hxs ▸ hx)

theorem Reachable.nodup_moduleRequests {r : Record} (h : Reachable r) :
    r.moduleRequests_.Nodup := by
  unfold Reachable Steps at h
  induction h with
  | refl => simp [empty]
  | tail hsteps hstep ih =>
    exact nodup_moduleRequests_step (Reachable.requestsAgree hsteps) hstep ih

theorem moduleRequests_prefix_steps {r r' : Record} (hsteps : Steps r r') :
    r.moduleRequests_ <+: r'.moduleRequests_ := by
  unfold Steps at hsteps
  induction hsteps with
  | refl => exact List.prefix_refl _
  | tail _ hstep ih =>
    rcases requests_step hstep with ⟨hseq, -⟩ | ⟨s, -, hseq, -⟩
    · rw [hseq]; exact ih
    · rw [hseq]; exact ih.trans (List.prefix_append _ _)

theorem find_moduleRequestsMap_iff {r : Record} (hagree : RequestsAgree r)
    (hnodup : r.moduleRequests_.Nodup) (s : String) (k : Nat) :
    ArenaMultiMap.find r.moduleRequestsMap_ s = some (s, (k : Int)) ↔
      r.moduleRequests_[k]? = some s := by
  constructor
  · intro hf
    obtain ⟨k', hk', hkk⟩ := (hagree.bound _).1 (ArenaMultiMap.find_some_mem hf).1
    have : k = k' := by
      simp only at hkk
      exact_mod_cast hkk
    rw [this]; exact hk'
  · intro hk
    have hmem : (s, (k : Int)) ∈ r.moduleRequestsMap_ :=
      (hagree.bound (s, (k : Int))).2 ⟨k, hk, rfl⟩
    cases hf : ArenaMultiMap.find r.moduleRequestsMap_ s with
    | none => exact absurd rfl (ArenaMultiMap.find_eq_none_iff.1 hf _ hmem)
    | some q =>
      obtain ⟨hq, hqs⟩ := ArenaMultiMap.find_some_mem hf
      obtain ⟨k', hk', hqk⟩ := (hagree.bound q).1 hq
      rw [hqs] at hk'
      have hlt : k < r.moduleRequests_.length := (List.getElem?_eq_some.1 hk).1
      have hkk : k = k' := List.getElem?_inj hlt hnodup (hk.trans hk'.symm)
      have : q = (s, (k : Int)) := Prod.ext hqs (by rw [hqk, hkk])
      rw [this]

theorem index_of_call {r r' : Record} {s : String} {idx : Int} (hr : Reachable r)
    (h : AddModuleRequest r s = some (idx, r')) :
    idx = (r'.moduleRequests_.indexOf s : Int) ∧ s ∈ r'.moduleRequests_ := by
  have hr' : Reachable r' := hr.step_reachable (Step.addModuleRequest h)
  have hagree := hr'.requestsAgree
  have hnodup := hr'.nodup_moduleRequests
  obtain ⟨p, hf, hp⟩ := find_moduleRequestsMap_of_call h
  obtain ⟨hmem, hps⟩ := ArenaMultiMap.find_some_mem hf
  obtain ⟨k, hk, hpk⟩ := (hagree.bound p).1 hmem
  rw [hps] at hk
  obtain ⟨hlt, hget⟩ := List.getElem?_eq_some.1 hk
  have hidx : List.indexOf s r'.moduleRequests_ = k := by
    rw [← hget]
    exact List.indexOf_getElem hnodup k hlt
  refine ⟨?_, List.mem_iff_getElem?.2 ⟨k, hk⟩⟩
  rw [hidx, ← hp, hpk]

theorem reachable_recordOneRequest : Reachable recordOneRequest :=
  Reachable.empty_reachable.step_reachable
    (@Step.addModuleRequest empty recordOneRequest "./a.js" 0 (by decide))

theorem reachable_recordTwoRequests : Reachable recordTwoRequests :=
  reachable_recordOneRequest.step_reachable
    (@Step.addModuleRequest recordOneRequest recordTwoRequests "./b.js" 1 (by decide))

theorem reachable_recordNamespaceX : Reachable recordNamespaceX :=
  Reachable.empty_reachable.step_reachable
    (@Step.addStarImportEntry empty recordNamespaceX namespaceX (by decide))

/-! ## Frame and totality of the export operations -/

theorem sameImportsAndRequests_AddLocalExportEntry {r : Record} {E : ExportEntry}
    {res : Bool × Record} (h : AddLocalExportEntry r E = some res) :
    SameImportsAndRequests r res.2 := by
  obtain ⟨-, ⟨-, hres⟩ | ⟨p, -, -, -, hres⟩⟩ := AddLocalExportEntry_some h
  · rw [hres]
    unfold afterLocalExport
    split <;> exact ⟨rfl, rfl, rfl, rfl⟩
  · rw [hres]
    unfold afterConvertedExport
    split <;> exact ⟨rfl, rfl, rfl, rfl⟩

theorem sameImportsAndRequests_AddIndirectExportEntry {r : Record} {E : ExportEntry}
    {res : Bool × Record} (h : AddIndirectExportEntry r E = some res) :
    SameImportsAndRequests r res.2 := by
  have he := AddIndirectExportEntry_wf h
  rw [AddIndirectExportEntry_eq r he] at h
  rw [← Option.some.inj h]
  split <;> exact ⟨rfl, rfl, rfl, rfl⟩

theorem sameImportsAndRequests_AddStarExportEntry {r r' : Record} {E : ExportEntry}
    (h : AddStarExportEntry r E = some r') : SameImportsAndRequests r r' := by
  have he := AddStarExportEntry_wf h
  rw [AddStarExportEntry_eq r he] at h
  rw [← Option.some.inj h]
  exact ⟨rfl, rfl, rfl, rfl⟩

theorem AddLocalExportEntry_total {r : Record} {E : ExportEntry} (hshape : Shape r)
    (hE : E.LocalWF) : ∃ res, AddLocalExportEntry r E = some res := by
  cases hf : ArenaMultiMap.find r.regularImportEntries_ E.localName_ with
  | none => exact ⟨_, AddLocalExportEntry_of_find_none r hE hf⟩
  | some p =>
    have hp := (hshape.imports p (ArenaMultiMap.find_some_mem hf).1).2
    exact ⟨_, AddLocalExportEntry_of_find_some r hE hf hp.1 hp.2.2⟩

theorem AddImportEntry_total {r : Record} {I : ImportEntry} (hshape : Shape r)
    (hI : I.WF) : AddImportEntry r I = some (afterImport r I) :=
  AddImportEntry_eq r hI
    (fun p hp _ => ⟨(hshape.locals p hp).2.1, (hshape.locals p hp).2.2.2.2⟩)

/-! ## The claims -/

/-- Claim C1: from every reachable record, for a well-formed regular import `I` and a
well-formed local export `E` with the same local name, `AddImportEntry I` followed by
`AddLocalExportEntry E` and `AddLocalExportEntry E` followed by `AddImportEntry I` both run
to their end, give the same boolean result of `AddLocalExportEntry` and the same record
(all seven tables). -/
theorem C1_import_export_order_independent (r : Record) (I : ImportEntry) (E : ExportEntry)
    (hr : Reachable r) (hI : I.WF) (hE : E.LocalWF) (hL : E.localName_ = I.localName_) :
    ∃ (res : Bool) (r' : Record),
      (AddImportEntry r I).bind (fun r1 => AddLocalExportEntry r1 E) = some (res, r') ∧
      (AddLocalExportEntry r E).bind
        (fun p => (AddImportEntry p.2 I).map (fun r2 => (p.1, r2))) = some (res, r') := by
  have hshape := hr.shape
  have hstale := hr.noStale
  have hlocals : ∀ p ∈ r.localExportEntries_, p.1 = I.localName_ →
      p.2.importName_ = "" ∧ p.2.moduleRequestIdx_ = -1 :=
    fun p hp _ => ⟨(hshape.locals p hp).2.1, (hshape.locals p hp).2.2.2.2⟩
  obtain ⟨res, h1, h2, h3⟩ := export_then_import hshape hstale hI hE hL
  refine ⟨(afterImportAndExport r I E).1, (afterImportAndExport r I E).2, ?_, ?_⟩
  · rw [AddImportEntry_eq r hI hlocals, Option.some_bind]
    exact import_then_export hshape hI hE hL
  · rw [h1, Option.some_bind, h3, Option.map_some', h2]
    rfl

/-- Witness of claim C1: on the empty record with `import {x}` (request 0) and `export {x}`,
both orders end with no Local export, the one Indirect export `x` (import name `x`,
request 0) and the import in place. -/
theorem C1_witness :
    (Reachable empty ∧ importX.WF ∧ exportX.LocalWF ∧
      exportX.localName_ = importX.localName_) ∧
    (∃ (res : Bool) (r' : Record),
      (AddImportEntry empty importX).bind (fun r1 => AddLocalExportEntry r1 exportX)
        = some (res, r') ∧
      (AddLocalExportEntry empty exportX).bind
        (fun p => (AddImportEntry p.2 importX).map (fun r2 => (p.1, r2))) = some (res, r')) ∧
    (AddImportEntry empty importX).bind (fun r1 => AddLocalExportEntry r1 exportX)
      = some (true, recordImportExportX) ∧
    (AddLocalExportEntry empty exportX).bind
      (fun p => (AddImportEntry p.2 importX).map (fun r2 => (p.1, r2)))
      = some (true, recordImportExportX) :=
  ⟨⟨Reachable.empty_reachable, by decide, by decide, by decide⟩,
    C1_import_export_order_independent empty importX exportX Reachable.empty_reachable
      (by decide) (by decide) (by decide),
    by decide, by decide⟩

/-- Claim C2: in every reachable record the export names of the Local table and of the
Indirect sequence, taken together, are pairwise distinct; in particular no Local entry and
Indirect entry share an export name. -/
theorem C2_export_names_unique (r : Record) (hr : Reachable r) :
    (exportNames r).Nodup ∧
      ∀ p ∈ r.localExportEntries_, ∀ e ∈ r.indirectExportEntries_,
        p.2.exportName_ ≠ e.exportName_ := by
  have h := hr.nodup_exportNames
  refine ⟨h, ?_⟩
  intro p hp e he heq
  unfold exportNames at h
  have hdisj := (List.nodup_append.1 h).2.2
  exact hdisj (List.mem_map.2 ⟨p, hp, rfl⟩) (List.mem_map.2 ⟨e, he, heq.symm⟩)

/-- Witness of claim C2: the record after `export {x}` and `import {x}`, where the
conversion has moved an entry from the Local table to the Indirect sequence. -/
theorem C2_witness :
    Reachable recordImportExportX ∧
    ((exportNames recordImportExportX).Nodup ∧
      ∀ p ∈ recordImportExportX.localExportEntries_,
        ∀ e ∈ recordImportExportX.indirectExportEntries_,
          p.2.exportName_ ≠ e.exportName_) :=
  ⟨reachable_recordImportExportX,
    C2_export_names_unique recordImportExportX reachable_recordImportExportX⟩

/-- Claim C3: in every reachable record no Local export entry has the local name of an
entry of the regular-import table. -/
theorem C3_no_stale_local (r : Record) (hr : Reachable r) :
    ∀ p ∈ r.localExportEntries_, ∀ q ∈ r.regularImportEntries_,
      p.2.localName_ ≠ q.2.localName_ :=
  hr.noStale

/-- Witness of claim C3: the record after `export {x}` and `import {x}`. -/
theorem C3_witness :
    Reachable recordImportExportX ∧
    ∀ p ∈ recordImportExportX.localExportEntries_,
      ∀ q ∈ recordImportExportX.regularImportEntries_,
        p.2.localName_ ≠ q.2.localName_ :=
  ⟨reachable_recordImportExportX,
    C3_no_stale_local recordImportExportX reachable_recordImportExportX⟩

/-- Claim C4: on a reachable record, `AddLocalExportEntry` of a well-formed local export
whose export name is carried by a Local or an Indirect entry returns `false` and leaves the
record as it was, with or without a regular import of that local name. -/
theorem C4_duplicate_rejected (r : Record) (E : ExportEntry) (hr : Reachable r)
    (hE : E.LocalWF)
    (hdup : (∃ p ∈ r.localExportEntries_, p.2.exportName_ = E.exportName_) ∨
      ∃ e ∈ r.indirectExportEntries_, e.exportName_ = E.exportName_) :
    AddLocalExportEntry r E = some (false, r) := by
  have hc : CheckDuplicateExports r E.exportName_ = false := by
    rw [CheckDuplicateExports_eq_false]
    unfold exportNames
    simp only [List.mem_append, List.mem_map]
    exact hdup
  cases hf : ArenaMultiMap.find r.regularImportEntries_ E.localName_ with
  | none =>
    rw [AddLocalExportEntry_of_find_none r hE hf]
    unfold afterLocalExport
    rw [hc]
    rfl
  | some p =>
    have hp := (hr.shape.imports p (ArenaMultiMap.find_some_mem hf).1).2
    rw [AddLocalExportEntry_of_find_some r hE hf hp.1 hp.2.2]
    unfold afterConvertedExport
    rw [hc]
    rfl

/-- Witness of claim C4: after `export {x}`, the call for `export {y as x}` returns `false`
and the record is the one after the first call. -/
theorem C4_witness :
    (Reachable recordExportX ∧ exportYasX.LocalWF ∧
      ((∃ p ∈ recordExportX.localExportEntries_, p.2.exportName_ = exportYasX.exportName_) ∨
        ∃ e ∈ recordExportX.indirectExportEntries_, e.exportName_ = exportYasX.exportName_)) ∧
    AddLocalExportEntry empty exportX = some (true, recordExportX) ∧
    AddLocalExportEntry recordExportX exportYasX = some (false, recordExportX) :=
  ⟨⟨reachable_recordExportX, by decide, by decide⟩, by decide,
    C4_duplicate_rejected recordExportX exportYasX reachable_recordExportX (by decide)
      (by decide)⟩

/-- Claim C5: for every record and every well-formed indirect entry `E`,
`AddIndirectExportEntry E` returns `true` exactly when no Local and no Indirect entry
carries the export name of `E`; on `true` the record is the old one with `E` appended to
the Indirect sequence, on `false` the record is the old one. -/
theorem C5_add_indirect_contract (r : Record) (E : ExportEntry) (hE : E.IndirectWF) :
    ∃ (res : Bool) (r' : Record),
      AddIndirectExportEntry r E = some (res, r') ∧
      (res = true ↔ ExportNameFree r E.exportName_) ∧
      (res = true →
        r' = { r with indirectExportEntries_ := r.indirectExportEntries_ ++ [E] }) ∧
      (res = false → r' = r) := by
  refine ⟨CheckDuplicateExports r E.exportName_, _, AddIndirectExportEntry_eq r hE, ?_, ?_, ?_⟩
  · rw [exportNameFree_iff, CheckDuplicateExports_eq_true]
  · intro h; rw [h]; rfl
  · intro h; rw [h]; rfl

/-- Witness of claim C5: the indirect export `x` on the empty record. -/
theorem C5_witness :
    indirectX.IndirectWF ∧
    ∃ (res : Bool) (r' : Record),
      AddIndirectExportEntry empty indirectX = some (res, r') ∧
      (res = true ↔ ExportNameFree empty indirectX.exportName_) ∧
      (res = true →
        r' = { empty with
          indirectExportEntries_ := empty.indirectExportEntries_ ++ [indirectX] }) ∧
      (res = false → r' = empty) :=
  ⟨by decide, C5_add_indirect_contract empty indirectX (by decide)⟩

/-- Claim C6: on a reachable record, `AddImportEntry` of a well-formed regular import `I`
runs to its end; afterwards (a) `I` is in the regular-import table under the key
`I.localName_`, (b) the Local table is the old one without the entries of local name
`I.localName_`, (c) the Indirect sequence is the old one followed, in table order, by one
entry for each removed Local entry, with that entry's export name, the import name and
the request index of `I` and an empty local name; and when no Local entry has that local
name the Local table and the Indirect sequence are the old ones. -/
theorem C6_import_triggered_conversion (r : Record) (I : ImportEntry) (hr : Reachable r)
    (hI : I.WF) :
    ∃ r', AddImportEntry r I = some r' ∧
      r'.regularImportEntries_ =
        ArenaMultiMap.insert I.localName_ I r.regularImportEntries_ ∧
      (I.localName_, I) ∈ r'.regularImportEntries_ ∧
      r'.localExportEntries_ =
        r.localExportEntries_.filter (fun p => decide (p.2.localName_ ≠ I.localName_)) ∧
      r'.indirectExportEntries_ =
        r.indirectExportEntries_ ++
          (r.localExportEntries_.filter (fun p => decide (p.2.localName_ = I.localName_))).map
            (fun p => ⟨I.moduleRequestIdx_, p.2.exportName_, "", I.importName_⟩) ∧
      ((∀ p ∈ r.localExportEntries_, p.2.localName_ ≠ I.localName_) →
        r'.localExportEntries_ = r.localExportEntries_ ∧
          r'.indirectExportEntries_ = r.indirectExportEntries_) := by
  have hshape := hr.shape
  have hlocals : ∀ p ∈ r.localExportEntries_, p.1 = I.localName_ →
      p.2.importName_ = "" ∧ p.2.moduleRequestIdx_ = -1 :=
    fun p hp _ => ⟨(hshape.locals p hp).2.1, (hshape.locals p hp).2.2.2.2⟩
  have hb : (afterImport r I).localExportEntries_ =
      r.localExportEntries_.filter (fun p => decide (p.2.localName_ ≠ I.localName_)) := by
    unfold afterImport ArenaMultiMap.erase_range
    apply List.filter_congr
    intro p hp
    rw [(hshape.locals p hp).1]
    simp
  have hc : (afterImport r I).indirectExportEntries_ =
      r.indirectExportEntries_ ++
        (r.localExportEntries_.filter (fun p => decide (p.2.localName_ = I.localName_))).map
          (fun p => ⟨I.moduleRequestIdx_, p.2.exportName_, "", I.importName_⟩) := by
    unfold afterImport ArenaMultiMap.equal_range
    have hfilter : r.localExportEntries_.filter (fun p => decide (p.1 = I.localName_)) =
        r.localExportEntries_.filter (fun p => decide (p.2.localName_ = I.localName_)) := by
      apply List.filter_congr
      intro p hp
      rw [(hshape.locals p hp).1]
    simp only [hfilter]
    rfl
  refine ⟨afterImport r I, AddImportEntry_eq r hI hlocals, rfl,
    ArenaMultiMap.mem_insert.2 (Or.inl rfl), hb, hc, ?_⟩
  intro hnone
  rw [hb, hc]
  have h1 : r.localExportEntries_.filter (fun p => decide (p.2.localName_ ≠ I.localName_))
      = r.localExportEntries_ := by
    rw [List.filter_eq_self]
    intro p hp
    simpa using hnone p hp
  have h2 : r.localExportEntries_.filter (fun p => decide (p.2.localName_ = I.localName_))
      = [] := by
    rw [List.filter_eq_nil_iff]
    intro p hp
    simpa using hnone p hp
  rw [h1, h2]
  simp

/-- Witness of claim C6: `import {x}` on the record that holds the Local export `x`. -/
theorem C6_witness :
    (Reachable recordExportX ∧ importX.WF) ∧
    (∃ r', AddImportEntry recordExportX importX = some r' ∧
      r'.regularImportEntries_ =
        ArenaMultiMap.insert importX.localName_ importX recordExportX.regularImportEntries_ ∧
      (importX.localName_, importX) ∈ r'.regularImportEntries_ ∧
      r'.localExportEntries_ =
        recordExportX.localExportEntries_.filter
          (fun p => decide (p.2.localName_ ≠ importX.localName_)) ∧
      r'.indirectExportEntries_ =
        recordExportX.indirectExportEntries_ ++
          (recordExportX.localExportEntries_.filter
            (fun p => decide (p.2.localName_ = importX.localName_))).map
            (fun p => ⟨importX.moduleRequestIdx_, p.2.exportName_, "", importX.importName_⟩) ∧
      ((∀ p ∈ recordExportX.localExportEntries_, p.2.localName_ ≠ importX.localName_) →
        r'.localExportEntries_ = recordExportX.localExportEntries_ ∧
          r'.indirectExportEntries_ = recordExportX.indirectExportEntries_)) ∧
    AddImportEntry recordExportX importX = some recordImportExportX :=
  ⟨⟨reachable_recordExportX, by decide⟩,
    C6_import_triggered_conversion recordExportX importX reachable_recordExportX (by decide),
    by decide⟩

/-- Claim C7: on a reachable record that holds a regular import of local name
`E.localName_`, `AddLocalExportEntry` of a well-formed local export `E` whose export name
is free returns `true`, leaves the Local table (and every table but the Indirect sequence)
as it was, and appends to the Indirect sequence the one entry with the export name of `E`,
an empty local name, and the import name and request index of a regular import `i` of the
record whose local name is `E.localName_`. -/
theorem C7_export_triggered_conversion (r : Record) (E : ExportEntry) (hr : Reachable r)
    (hE : E.LocalWF)
    (himp : ∃ q ∈ r.regularImportEntries_, q.2.localName_ = E.localName_)
    (hfree : ExportNameFree r E.exportName_) :
    ∃ i : ImportEntry,
      (∃ q ∈ r.regularImportEntries_, q.2 = i) ∧ i.localName_ = E.localName_ ∧
      AddLocalExportEntry r E =
        some (true,
          { r with
            indirectExportEntries_ :=
              r.indirectExportEntries_ ++
                [⟨i.moduleRequestIdx_, E.exportName_, "", i.importName_⟩] }) := by
  have hshape := hr.shape
  have hc : CheckDuplicateExports r E.exportName_ = true := by
    rw [CheckDuplicateExports_eq_true, ← exportNameFree_iff]
    exact hfree
  cases hf : ArenaMultiMap.find r.regularImportEntries_ E.localName_ with
  | none =>
    obtain ⟨q, hq, hql⟩ := himp
    have := ArenaMultiMap.find_eq_none_iff.1 hf q hq
    rw [← (hshape.imports q hq).1] at this
    exact absurd hql this
  | some p =>
    obtain ⟨hmem, hkey⟩ := ArenaMultiMap.find_some_mem hf
    have hp := hshape.imports p hmem
    refine ⟨p.2, ⟨p, hmem, rfl⟩, by rw [hp.1, hkey], ?_⟩
    rw [AddLocalExportEntry_of_find_some r hE hf hp.2.1 hp.2.2.2]
    unfold afterConvertedExport
    rw [hc]
    rfl

/-- Witness of claim C7 (fan-out): after `import {x}`, the local exports `x as a` and
`x as b` both become Indirect entries of request 0 and import name `x`, and the Local table
stays empty. -/
theorem C7_witness :
    (Reachable recordImportX ∧ exportXasA.LocalWF ∧
      (∃ q ∈ recordImportX.regularImportEntries_, q.2.localName_ = exportXasA.localName_) ∧
      ExportNameFree recordImportX exportXasA.exportName_) ∧
    (∃ i : ImportEntry,
      (∃ q ∈ recordImportX.regularImportEntries_, q.2 = i) ∧
      i.localName_ = exportXasA.localName_ ∧
      AddLocalExportEntry recordImportX exportXasA =
        some (true,
          { recordImportX with
            indirectExportEntries_ :=
              recordImportX.indirectExportEntries_ ++
                [⟨i.moduleRequestIdx_, exportXasA.exportName_, "", i.importName_⟩] })) ∧
    ((AddImportEntry empty importX).bind fun r1 =>
      (AddLocalExportEntry r1 exportXasA).bind fun p1 =>
        (AddLocalExportEntry p1.2 exportXasB).map fun p2 => (p1.1, p2.1, p2.2))
      = some (true, true, recordFanOut) ∧
    recordFanOut.localExportEntries_ = [] :=
  ⟨⟨reachable_recordImportX, by decide, by decide, by decide⟩,
    C7_export_triggered_conversion recordImportX exportXasA reachable_recordImportX
      (by decide) (by decide) (by decide),
    by decide, rfl⟩

/-- Claim C8: on a reachable record without a regular import of local name
`E.localName_`, `AddLocalExportEntry` of a well-formed local export `E` whose export name
is free returns `true` and inserts `E`, as it is, into the Local table under the key
`E.localName_`: every old entry stays, also those of the same local name, and the Indirect
sequence (with every other table) is as it was. -/
theorem C8_plain_local_insertion (r : Record) (E : ExportEntry) (hr : Reachable r)
    (hE : E.LocalWF)
    (hno : ∀ q ∈ r.regularImportEntries_, q.2.localName_ ≠ E.localName_)
    (hfree : ExportNameFree r E.exportName_) :
    AddLocalExportEntry r E =
      some (true,
        { r with
          localExportEntries_ :=
            ArenaMultiMap.insert E.localName_ E r.localExportEntries_ }) ∧
    (∀ p, p ∈ ArenaMultiMap.insert E.localName_ E r.localExportEntries_ ↔
      p = (E.localName_, E) ∨ p ∈ r.localExportEntries_) ∧
    (ArenaMultiMap.insert E.localName_ E r.localExportEntries_).length =
      r.localExportEntries_.length + 1 := by
  have hshape := hr.shape
  have hc : CheckDuplicateExports r E.exportName_ = true := by
    rw [CheckDuplicateExports_eq_true, ← exportNameFree_iff]
    exact hfree
  have hf : ArenaMultiMap.find r.regularImportEntries_ E.localName_ = none := by
    rw [ArenaMultiMap.find_eq_none_iff]
    intro q hq
    rw [← (hshape.imports q hq).1]
    exact hno q hq
  refine ⟨?_, fun p => ArenaMultiMap.mem_insert, ArenaMultiMap.length_insert _ _ _⟩
  rw [AddLocalExportEntry_of_find_none r hE hf]
  unfold afterLocalExport
  rw [hc]
  rfl

/-- Witness of claim C8: `export {x as a, x as b}`, two export names of one local name. -/
theorem C8_witness :
    (Reachable recordExportXasA ∧ exportXasB.LocalWF ∧
      (∀ q ∈ recordExportXasA.regularImportEntries_, q.2.localName_ ≠ exportXasB.localName_) ∧
      ExportNameFree recordExportXasA exportXasB.exportName_) ∧
    (AddLocalExportEntry recordExportXasA exportXasB =
      some (true,
        { recordExportXasA with
          localExportEntries_ :=
            ArenaMultiMap.insert exportXasB.localName_ exportXasB
              recordExportXasA.localExportEntries_ }) ∧
    (∀ p, p ∈ ArenaMultiMap.insert exportXasB.localName_ exportXasB
        recordExportXasA.localExportEntries_ ↔
      p = (exportXasB.localName_, exportXasB) ∨ p ∈ recordExportXasA.localExportEntries_) ∧
    (ArenaMultiMap.insert exportXasB.localName_ exportXasB
        recordExportXasA.localExportEntries_).length =
      recordExportXasA.localExportEntries_.length + 1) ∧
    ArenaMultiMap.insert exportXasB.localName_ exportXasB recordExportXasA.localExportEntries_
      = [("x", exportXasA), ("x", exportXasB)] :=
  ⟨⟨reachable_recordExportXasA, by decide, by decide, by decide⟩,
    C8_plain_local_insertion recordExportXasA exportXasB reachable_recordExportXasA
      (by decide) (by decide) (by decide),
    by decide⟩

/-- Claim C9: when a call `AddModuleRequest s` on a reachable record has returned the index
`idx`, then after any further sequence of operations the call `AddModuleRequest s` returns
`idx` again and leaves the record, so the request sequence and the specifier index, as it
was. -/
theorem C9_request_dedup_idempotent (r r1 r2 : Record) (s : String) (idx : Int)
    (hr : Reachable r) (hcall : AddModuleRequest r s = some (idx, r1))
    (hlater : Steps r1 r2) :
    Reachable r2 ∧ AddModuleRequest r2 s = some (idx, r2) := by
  have hs := (AddModuleRequest_some hcall).1
  obtain ⟨p, hfind, hp⟩ := find_moduleRequestsMap_of_call hcall
  have hfind2 := find_moduleRequestsMap_steps hlater hfind
  refine ⟨Relation.ReflTransGen.trans (hr.step_reachable (Step.addModuleRequest hcall)) hlater, ?_⟩
  rw [AddModuleRequest_of_find_some r2 hs hfind2, hp]

/-- Witness of claim C9: the requests `./a.js`, `./b.js`, `./a.js` on the empty record
return 0, 1, 0 and leave a request sequence of two elements. -/
theorem C9_witness :
    (Reachable empty ∧ AddModuleRequest empty "./a.js" = some (0, recordOneRequest) ∧
      Steps recordOneRequest recordTwoRequests) ∧
    (Reachable recordTwoRequests ∧
      AddModuleRequest recordTwoRequests "./a.js" = some (0, recordTwoRequests)) ∧
    AddModuleRequest recordOneRequest "./b.js" = some (1, recordTwoRequests) ∧
    recordTwoRequests.moduleRequests_.length = 2 :=
  have hstep : Steps recordOneRequest recordTwoRequests :=
    Relation.ReflTransGen.single
      (@Step.addModuleRequest recordOneRequest recordTwoRequests "./b.js" 1 (by decide))
  ⟨⟨Reachable.empty_reachable, by decide, hstep⟩,
    C9_request_dedup_idempotent empty recordOneRequest recordTwoRequests "./a.js" 0
      Reachable.empty_reachable (by decide) hstep,
    by decide, rfl⟩

/-- Claim C10: on a reachable record, `AddModuleRequest s` for a non-empty specifier `s`
that is not in the request sequence returns the length `n` of that sequence; afterwards the
sequence is the old one with `s` appended, the index binds `s` to `n` and every old binding
is kept (no other specifier changes its binding), and no other table changes. -/
theorem C10_fresh_request_next_index (r : Record) (s : String) (hr : Reachable r)
    (hs : s ≠ "") (hnew : s ∉ r.moduleRequests_) :
    ∃ r', AddModuleRequest r s = some ((r.moduleRequests_.length : Int), r') ∧
      r'.moduleRequests_ = r.moduleRequests_ ++ [s] ∧
      r'.moduleRequests_.length = r.moduleRequests_.length + 1 ∧
      (∀ k : Nat, k < r.moduleRequests_.length →
        r'.moduleRequests_[k]? = r.moduleRequests_[k]?) ∧
      ArenaMultiMap.find r'.moduleRequestsMap_ s
        = some (s, (r.moduleRequests_.length : Int)) ∧
      (∀ p, p ∈ r'.moduleRequestsMap_ ↔
        p = (s, (r.moduleRequests_.length : Int)) ∨ p ∈ r.moduleRequestsMap_) ∧
      (∀ t, t ≠ s →
        ArenaMultiMap.find r'.moduleRequestsMap_ t
          = ArenaMultiMap.find r.moduleRequestsMap_ t) ∧
      r' = { r with
        moduleRequests_ := r'.moduleRequests_
        moduleRequestsMap_ := r'.moduleRequestsMap_ } := by
  have hagree := hr.requestsAgree
  have hf := hagree.find_none_of_not_mem hnew
  refine ⟨{ r with
      moduleRequests_ := r.moduleRequests_ ++ [s]
      moduleRequestsMap_ :=
        ArenaMultiMap.insert s (r.moduleRequestsMap_.length : Int) r.moduleRequestsMap_ },
    ?_, rfl, ?_, ?_, ?_, ?_, ?_, rfl⟩
  · rw [AddModuleRequest_of_find_none r hs hf, hagree.length_eq]
  · simp
  · intro k hk
    exact List.getElem?_append_left hk
  · rw [← hagree.length_eq]
    exact ArenaMultiMap.find_insert_of_none hf
  · intro p
    rw [← hagree.length_eq]
    exact ArenaMultiMap.mem_insert
  · intro t ht
    exact ArenaMultiMap.find_insert_ne (Ne.symm ht)

/-- Witness of claim C10: the request `./b.js` on the record that holds `./a.js`. -/
theorem C10_witness :
    (Reachable recordOneRequest ∧ "./b.js" ≠ "" ∧
      "./b.js" ∉ recordOneRequest.moduleRequests_) ∧
    (∃ r', AddModuleRequest recordOneRequest "./b.js"
        = some ((recordOneRequest.moduleRequests_.length : Int), r') ∧
      r'.moduleRequests_ = recordOneRequest.moduleRequests_ ++ ["./b.js"] ∧
      r'.moduleRequests_.length = recordOneRequest.moduleRequests_.length + 1 ∧
      (∀ k : Nat, k < recordOneRequest.moduleRequests_.length →
        r'.moduleRequests_[k]? = recordOneRequest.moduleRequests_[k]?) ∧
      ArenaMultiMap.find r'.moduleRequestsMap_ "./b.js"
        = some ("./b.js", (recordOneRequest.moduleRequests_.length : Int)) ∧
      (∀ p, p ∈ r'.moduleRequestsMap_ ↔
        p = ("./b.js", (recordOneRequest.moduleRequests_.length : Int)) ∨
          p ∈ recordOneRequest.moduleRequestsMap_) ∧
      (∀ t, t ≠ "./b.js" →
        ArenaMultiMap.find r'.moduleRequestsMap_ t
          = ArenaMultiMap.find recordOneRequest.moduleRequestsMap_ t) ∧
      r' = { recordOneRequest with
        moduleRequests_ := r'.moduleRequests_
        moduleRequestsMap_ := r'.moduleRequestsMap_ }) ∧
    AddModuleRequest recordOneRequest "./b.js" = some (1, recordTwoRequests) :=
  ⟨⟨Reachable.empty_reachable.step_reachable
      (@Step.addModuleRequest empty recordOneRequest "./a.js" 0 (by decide)),
      by decide, by decide⟩,
    C10_fresh_request_next_index recordOneRequest "./b.js"
      (Reachable.empty_reachable.step_reachable
        (@Step.addModuleRequest empty recordOneRequest "./a.js" 0 (by decide)))
      (by decide) (by decide),
    by decide⟩

/-- Claim C11: in every reachable record the specifier index and the request sequence have
the same length, the index binds `s` to `k` exactly when the `k`-th element of the sequence
is `s`, every binding of the index is of that kind, and the sequence has no specifier twice;
the index a call returns for `s` is the position of `s` in the sequence; and whatever
operations follow, the sequence only grows at its end and every binding stays. -/
theorem C11_stable_request_indices (r : Record) (hr : Reachable r) :
    r.moduleRequestsMap_.length = r.moduleRequests_.length ∧
    (∀ (s : String) (k : Nat),
      ArenaMultiMap.find r.moduleRequestsMap_ s = some (s, (k : Int)) ↔
        r.moduleRequests_[k]? = some s) ∧
    (∀ p ∈ r.moduleRequestsMap_,
      ∃ k : Nat, p.2 = (k : Int) ∧ r.moduleRequests_[k]? = some p.1) ∧
    r.moduleRequests_.Nodup ∧
    (∀ (s : String) (idx : Int) (r' : Record), AddModuleRequest r s = some (idx, r') →
      idx = (r'.moduleRequests_.indexOf s : Int) ∧ s ∈ r'.moduleRequests_) ∧
    (∀ r', Steps r r' →
      r.moduleRequests_ <+: r'.moduleRequests_ ∧
      ∀ (s : String) (p : String × Int),
        ArenaMultiMap.find r.moduleRequestsMap_ s = some p →
          ArenaMultiMap.find r'.moduleRequestsMap_ s = some p) := by
  have hagree := hr.requestsAgree
  have hnodup := hr.nodup_moduleRequests
  refine ⟨hagree.length_eq, find_moduleRequestsMap_iff hagree hnodup, ?_, hnodup, ?_, ?_⟩
  · intro p hp
    obtain ⟨k, hk, hpk⟩ := (hagree.bound p).1 hp
    exact ⟨k, hpk, hk⟩
  · intro s idx r' h
    exact index_of_call hr h
  · intro r' hsteps
    exact ⟨moduleRequests_prefix_steps hsteps,
      fun s p h => find_moduleRequestsMap_steps hsteps h⟩

/-- Witness of claim C11: the record after the requests `./a.js` and `./b.js`. -/
theorem C11_witness :
    Reachable recordTwoRequests ∧
    (recordTwoRequests.moduleRequestsMap_.length = recordTwoRequests.moduleRequests_.length ∧
    (∀ (s : String) (k : Nat),
      ArenaMultiMap.find recordTwoRequests.moduleRequestsMap_ s = some (s, (k : Int)) ↔
        recordTwoRequests.moduleRequests_[k]? = some s) ∧
    (∀ p ∈ recordTwoRequests.moduleRequestsMap_,
      ∃ k : Nat, p.2 = (k : Int) ∧ recordTwoRequests.moduleRequests_[k]? = some p.1) ∧
    recordTwoRequests.moduleRequests_.Nodup ∧
    (∀ (s : String) (idx : Int) (r' : Record),
      AddModuleRequest recordTwoRequests s = some (idx, r') →
        idx = (r'.moduleRequests_.indexOf s : Int) ∧ s ∈ r'.moduleRequests_) ∧
    (∀ r', Steps recordTwoRequests r' →
      recordTwoRequests.moduleRequests_ <+: r'.moduleRequests_ ∧
      ∀ (s : String) (p : String × Int),
        ArenaMultiMap.find recordTwoRequests.moduleRequestsMap_ s = some p →
          ArenaMultiMap.find r'.moduleRequestsMap_ s = some p)) :=
  ⟨reachable_recordTwoRequests,
    C11_stable_request_indices recordTwoRequests reachable_recordTwoRequests⟩

/-- Claim C12: for every record and every well-formed star export entry `E`,
`AddStarExportEntry E` returns the record with `E` appended to the star-export sequence and
every other table as it was; a second call, also with the same request index or the same
entry, appends again, so that the sequence has grown by two. -/
theorem C12_star_exports_bypass_dedup (r : Record) (E E' : ExportEntry) (hE : E.StarWF)
    (hE' : E'.StarWF) :
    AddStarExportEntry r E =
      some { r with starExportEntries_ := r.starExportEntries_ ++ [E] } ∧
    ∃ r2, (AddStarExportEntry r E).bind (fun r1 => AddStarExportEntry r1 E') = some r2 ∧
      r2 = { r with starExportEntries_ := r.starExportEntries_ ++ [E, E'] } ∧
      r2.starExportEntries_.length = r.starExportEntries_.length + 2 := by
  refine ⟨AddStarExportEntry_eq r hE, _, ?_, rfl, ?_⟩
  · rw [AddStarExportEntry_eq r hE, Option.some_bind, AddStarExportEntry_eq _ hE']
    simp
  · simp

/-- Witness of claim C12: the star export of request 0, twice, on the empty record. -/
theorem C12_witness :
    (starExport0.StarWF ∧ starExport0.moduleRequestIdx_ = starExport0.moduleRequestIdx_) ∧
    (AddStarExportEntry empty starExport0 =
      some { empty with starExportEntries_ := empty.starExportEntries_ ++ [starExport0] } ∧
    ∃ r2, (AddStarExportEntry empty starExport0).bind
        (fun r1 => AddStarExportEntry r1 starExport0) = some r2 ∧
      r2 = { empty with
        starExportEntries_ := empty.starExportEntries_ ++ [starExport0, starExport0] } ∧
      r2.starExportEntries_.length = empty.starExportEntries_.length + 2) :=
  ⟨⟨by decide, rfl⟩,
    C12_star_exports_bypass_dedup empty starExport0 starExport0 (by decide) (by decide)⟩

/-- Claim C13: (a) `AddStarImportEntry` of a well-formed namespace import appends it to the
namespace-import sequence and changes nothing else, so the Local table and the Indirect
sequence stay as they were whatever Local exports there are; (b) on a reachable record with a
namespace import of local name `E.localName_` and no regular import of that local name,
`AddLocalExportEntry` of a well-formed `E` with a free export name stores `E` in the Local
table; (c) `CheckDuplicateExports` gives the same result before and after a call of
`AddStarImportEntry` or `AddStarExportEntry`. -/
theorem C13_star_entries_outside_dedup_and_conversion (r : Record) (S : ImportEntry)
    (X E : ExportEntry) (name : String) (hS : S.StarWF) (hX : X.StarWF) :
    AddStarImportEntry r S =
      some { r with namespaceImportEntries_ := r.namespaceImportEntries_ ++ [S] } ∧
    (Reachable r → E.LocalWF →
      (∃ n ∈ r.namespaceImportEntries_, n.localName_ = E.localName_) →
      (∀ q ∈ r.regularImportEntries_, q.2.localName_ ≠ E.localName_) →
      ExportNameFree r E.exportName_ →
      AddLocalExportEntry r E =
        some (true,
          { r with
            localExportEntries_ :=
              ArenaMultiMap.insert E.localName_ E r.localExportEntries_ })) ∧
    (∃ r', AddStarImportEntry r S = some r' ∧
      CheckDuplicateExports r' name = CheckDuplicateExports r name) ∧
    (∃ r', AddStarExportEntry r X = some r' ∧
      CheckDuplicateExports r' name = CheckDuplicateExports r name) := by
  refine ⟨AddStarImportEntry_eq r hS, ?_, ⟨_, AddStarImportEntry_eq r hS, rfl⟩,
    ⟨_, AddStarExportEntry_eq r hX, rfl⟩⟩
  intro hr hE _ hno hfree
  have hc : CheckDuplicateExports r E.exportName_ = true := by
    rw [CheckDuplicateExports_eq_true, ← exportNameFree_iff]
    exact hfree
  have hf : ArenaMultiMap.find r.regularImportEntries_ E.localName_ = none := by
    rw [ArenaMultiMap.find_eq_none_iff]
    intro q hq
    rw [← (hr.shape.imports q hq).1]
    exact hno q hq
  rw [AddLocalExportEntry_of_find_none r hE hf]
  unfold afterLocalExport
  rw [hc]
  rfl

/-- Witness of claim C13: with the namespace import `x` in the record, `export {x}` is stored
as a Local export; and the namespace import `x` on the record that holds the Local export
`x` leaves that export in the Local table. -/
theorem C13_witness :
    (namespaceX.StarWF ∧ starExport0.StarWF ∧ Reachable recordNamespaceX ∧
      exportX.LocalWF ∧
      (∃ n ∈ recordNamespaceX.namespaceImportEntries_, n.localName_ = exportX.localName_) ∧
      (∀ q ∈ recordNamespaceX.regularImportEntries_, q.2.localName_ ≠ exportX.localName_) ∧
      ExportNameFree recordNamespaceX exportX.exportName_) ∧
    AddLocalExportEntry recordNamespaceX exportX =
      some (true,
        { recordNamespaceX with
          localExportEntries_ :=
            ArenaMultiMap.insert exportX.localName_ exportX
              recordNamespaceX.localExportEntries_ }) ∧
    AddStarImportEntry recordExportX namespaceX =
      some { recordExportX with namespaceImportEntries_ := [namespaceX] } :=
  ⟨⟨by decide, by decide, reachable_recordNamespaceX, by decide, by decide, by decide,
      by decide⟩,
    (C13_star_entries_outside_dedup_and_conversion recordNamespaceX namespaceX starExport0
      exportX "x" (by decide) (by decide)).2.1 reachable_recordNamespaceX (by decide)
      (by decide) (by decide) (by decide),
    by decide⟩

/-- Claim C14: for every record and every name, `CheckDuplicateExports` returns `false`
exactly when a Local or an Indirect entry has that export name, and `true` exactly when the
name is free. -/
theorem C14_check_duplicate_exports_spec (r : Record) (name : String) :
    (CheckDuplicateExports r name = false ↔
      (∃ p ∈ r.localExportEntries_, p.2.exportName_ = name) ∨
        ∃ e ∈ r.indirectExportEntries_, e.exportName_ = name) ∧
    (CheckDuplicateExports r name = true ↔ ExportNameFree r name) := by
  refine ⟨?_, ?_⟩
  · rw [CheckDuplicateExports_eq_false]
    unfold exportNames
    simp only [List.mem_append, List.mem_map]
  · rw [exportNameFree_iff, CheckDuplicateExports_eq_true]

/-- Counterexample to claim C15: the import entry with two non-empty names and the negative
request index `-2` passes the assertions of `AddImportEntry` and is inserted. -/
theorem C15_counterexample :
    importNegativeIdx.importName_ ≠ "" ∧ importNegativeIdx.localName_ ≠ "" ∧
    importNegativeIdx.moduleRequestIdx_ < 0 ∧
    AddImportEntry empty importNegativeIdx =
      some { empty with regularImportEntries_ := [("x", importNegativeIdx)] } ∧
    ¬ (∀ (r : Record) (I : ImportEntry), I.importName_ ≠ "" → I.localName_ ≠ "" →
        I.moduleRequestIdx_ < 0 → AddImportEntry r I = none) := by
  refine ⟨by decide, by decide, by decide, by decide, ?_⟩
  intro h
  have := h empty importNegativeIdx (by decide) (by decide) (by decide)
  exact absurd this (by decide)

/-- Claim C15, amended: on a reachable record, for an import entry with a non-empty import
name and a non-empty local name, the assertions of `AddImportEntry` fail exactly when
`moduleRequestIdx_` is the sentinel `-1`; with any other index, a negative one included,
the call runs to its end and the entry is in the regular-import table. -/
theorem C15_import_index_sentinel (r : Record) (I : ImportEntry) (hr : Reachable r)
    (h1 : I.importName_ ≠ "") (h2 : I.localName_ ≠ "") :
    (I.moduleRequestIdx_ = -1 → AddImportEntry r I = none) ∧
    (I.moduleRequestIdx_ ≠ -1 →
      ∃ r', AddImportEntry r I = some r' ∧ (I.localName_, I) ∈ r'.regularImportEntries_) ∧
    (AddImportEntry r I = none ↔ I.moduleRequestIdx_ = -1) := by
  have hnone : I.moduleRequestIdx_ = -1 → AddImportEntry r I = none := by
    intro h3
    unfold AddImportEntry
    have h3' : ¬ I.moduleRequestIdx_ ≠ -1 := not_not.2 h3
    simp [ASSERT_of h1, ASSERT_of h2, ASSERT_eq_none.2 h3']
  have hsome : I.moduleRequestIdx_ ≠ -1 → AddImportEntry r I = some (afterImport r I) := by
    intro h3
    exact AddImportEntry_eq r ⟨h1, h2, h3⟩
      (fun p hp _ => ⟨(hr.shape.locals p hp).2.1, (hr.shape.locals p hp).2.2.2.2⟩)
  refine ⟨hnone, ?_, ?_, hnone⟩
  · intro h3
    exact ⟨_, hsome h3, ArenaMultiMap.mem_insert.2 (Or.inl rfl)⟩
  · intro h
    by_contra h3
    rw [hsome h3] at h
    exact absurd h (by simp)

/-- Witness of claim C15, amended: the request index `-2` is accepted on the empty record,
the request index `-1` is refused. -/
theorem C15_witness :
    (Reachable empty ∧ importNegativeIdx.importName_ ≠ "" ∧
      importNegativeIdx.localName_ ≠ "") ∧
    ((importNegativeIdx.moduleRequestIdx_ = -1 → AddImportEntry empty importNegativeIdx = none) ∧
    (importNegativeIdx.moduleRequestIdx_ ≠ -1 →
      ∃ r', AddImportEntry empty importNegativeIdx = some r' ∧
        (importNegativeIdx.localName_, importNegativeIdx) ∈ r'.regularImportEntries_) ∧
    (AddImportEntry empty importNegativeIdx = none ↔
      importNegativeIdx.moduleRequestIdx_ = -1)) ∧
    AddImportEntry empty importUnsetIdx = none :=
  ⟨⟨Reachable.empty_reachable, by decide, by decide⟩,
    C15_import_index_sentinel empty importNegativeIdx Reachable.empty_reachable (by decide)
      (by decide),
    by decide⟩

/-- Claim C17: whenever `AddLocalExportEntry`, `AddIndirectExportEntry` or
`AddStarExportEntry` runs to its end, with whatever result and with or without a
conversion, the regular-import table, the namespace-import sequence, the request sequence
and the specifier index are those of before; and each of the three does run to its end on a
well-formed entry (for `AddLocalExportEntry`, on a reachable record). -/
theorem C17_export_operations_keep_imports_and_requests (r : Record) (E : ExportEntry) :
    (∀ res, AddLocalExportEntry r E = some res → SameImportsAndRequests r res.2) ∧
    (∀ res, AddIndirectExportEntry r E = some res → SameImportsAndRequests r res.2) ∧
    (∀ r', AddStarExportEntry r E = some r' → SameImportsAndRequests r r') ∧
    (Reachable r → E.LocalWF → ∃ res, AddLocalExportEntry r E = some res) ∧
    (E.IndirectWF → ∃ res, AddIndirectExportEntry r E = some res) ∧
    (E.StarWF → ∃ r', AddStarExportEntry r E = some r') :=
  ⟨fun _ h => sameImportsAndRequests_AddLocalExportEntry h,
    fun _ h => sameImportsAndRequests_AddIndirectExportEntry h,
    fun _ h => sameImportsAndRequests_AddStarExportEntry h,
    fun hr hE => AddLocalExportEntry_total hr.shape hE,
    fun hE => ⟨_, AddIndirectExportEntry_eq r hE⟩,
    fun hE => ⟨_, AddStarExportEntry_eq r hE⟩⟩

/-- Witness of claim C17: `export {x}` on the record that holds `import {x}` is converted,
and the import, with the three other tables, is as before. -/
theorem C17_witness :
    AddLocalExportEntry recordImportX exportX = some (true, recordImportExportX) ∧
    SameImportsAndRequests recordImportX recordImportExportX :=
  ⟨by decide,
    (C17_export_operations_keep_imports_and_requests recordImportX exportX).1
      (true, recordImportExportX) (by decide)⟩

/-- Claim C18: in every reachable record every entry of the Local table has an empty import
name and the request index `-1`, and every entry of the regular-import table has a
non-empty import name and a request index other than `-1`; hence `AddImportEntry` and
`AddLocalExportEntry`, called with an entry that passes their entry-point assertions, run to
their end: no assertion inside the two conversions, and none of the `AddIndirectExportEntry`
called from the export-triggered conversion, fails. -/
theorem C18_internal_assertions_unreachable (r : Record) (hr : Reachable r) :
    (∀ p ∈ r.localExportEntries_, p.2.importName_ = "" ∧ p.2.moduleRequestIdx_ = -1) ∧
    (∀ q ∈ r.regularImportEntries_,
      q.2.importName_ ≠ "" ∧ q.2.moduleRequestIdx_ ≠ -1) ∧
    (∀ I : ImportEntry, I.WF → ∃ r', AddImportEntry r I = some r') ∧
    (∀ E : ExportEntry, E.LocalWF →
      (∃ res, ConvertLocalExportsToIndirect_ExportEntry r E = some res) ∧
        ∃ res, AddLocalExportEntry r E = some res) := by
  have hshape := hr.shape
  refine ⟨fun p hp => ⟨(hshape.locals p hp).2.1, (hshape.locals p hp).2.2.2.2⟩,
    fun q hq => ⟨(hshape.imports q hq).2.1, (hshape.imports q hq).2.2.2⟩,
    fun I hI => ⟨_, AddImportEntry_total hshape hI⟩, ?_⟩
  intro E hE
  obtain ⟨res, hres⟩ := AddLocalExportEntry_total hshape hE
  refine ⟨?_, res, hres⟩
  cases hc : ConvertLocalExportsToIndirect_ExportEntry r E with
  | some c => exact ⟨c, rfl⟩
  | none =>
    obtain ⟨h1, h2, h3, h4⟩ := hE
    unfold AddLocalExportEntry at hres
    simp [ASSERT_of h1, ASSERT_of h2, ASSERT_of h3, ASSERT_of h4, hc] at hres

/-- Witness of claim C18: the record that holds the Local export `x`, where `import {x}`
runs the loop of the import-triggered conversion. -/
theorem C18_witness :
    Reachable recordExportX ∧
    ((∀ p ∈ recordExportX.localExportEntries_,
      p.2.importName_ = "" ∧ p.2.moduleRequestIdx_ = -1) ∧
    (∀ q ∈ recordExportX.regularImportEntries_,
      q.2.importName_ ≠ "" ∧ q.2.moduleRequestIdx_ ≠ -1) ∧
    (∀ I : ImportEntry, I.WF → ∃ r', AddImportEntry recordExportX I = some r') ∧
    (∀ E : ExportEntry, E.LocalWF →
      (∃ res, ConvertLocalExportsToIndirect_ExportEntry recordExportX E = some res) ∧
        ∃ res, AddLocalExportEntry recordExportX E = some res)) :=
  ⟨reachable_recordExportX,
    C18_internal_assertions_unreachable recordExportX reachable_recordExportX⟩

/-- Claim C19: in every reachable record every Local entry has a non-empty export name, a
non-empty local name equal to its key, an empty import name and the request index `-1`;
every Indirect entry has a non-empty export name, a non-empty import name, an empty local
name and a request index other than `-1`; every star export has three empty names and a
request index other than `-1`; and a call of `AddLocalExportEntry` leaves the Local table as
it was or inserts the entry as it was passed, local name included, under that local name. -/
theorem C19_entry_shape_invariant (r : Record) (hr : Reachable r) :
    (∀ p ∈ r.localExportEntries_,
      p.2.exportName_ ≠ "" ∧ p.2.localName_ ≠ "" ∧ p.2.localName_ = p.1 ∧
        p.2.importName_ = "" ∧ p.2.moduleRequestIdx_ = -1) ∧
    (∀ e ∈ r.indirectExportEntries_,
      e.exportName_ ≠ "" ∧ e.importName_ ≠ "" ∧ e.localName_ = "" ∧
        e.moduleRequestIdx_ ≠ -1) ∧
    (∀ e ∈ r.starExportEntries_,
      e.exportName_ = "" ∧ e.importName_ = "" ∧ e.localName_ = "" ∧
        e.moduleRequestIdx_ ≠ -1) ∧
    (∀ (E : ExportEntry) (res : Bool × Record), AddLocalExportEntry r E = some res →
      res.2.localExportEntries_ = r.localExportEntries_ ∨
        (E.localName_ ≠ "" ∧
          res.2.localExportEntries_ =
            ArenaMultiMap.insert E.localName_ E r.localExportEntries_)) := by
  have hshape := hr.shape
  refine ⟨?_, ?_, ?_, ?_⟩
  · intro p hp
    obtain ⟨hk, h1, h2, h3, h4⟩ := hshape.locals p hp
    exact ⟨h3, h2, hk, h1, h4⟩
  · intro e he
    obtain ⟨h1, h2, h3, h4⟩ := hshape.indirects e he
    exact ⟨h2, h1, h3, h4⟩
  · intro e he
    obtain ⟨h1, h2, h3, h4⟩ := hshape.stars e he
    exact ⟨h3, h1, h2, h4⟩
  · intro E res h
    obtain ⟨hE, ⟨-, hres⟩ | ⟨p, -, -, -, hres⟩⟩ := AddLocalExportEntry_some h
    · rw [hres]
      unfold afterLocalExport
      split
      · exact Or.inr ⟨hE.2.1, rfl⟩
      · exact Or.inl rfl
    · rw [hres]
      unfold afterConvertedExport
      split <;> exact Or.inl rfl

/-- Witness of claim C19: the record after `export {x}` and `import {x}`. -/
theorem C19_witness :
    Reachable recordImportExportX ∧
    ((∀ p ∈ recordImportExportX.localExportEntries_,
      p.2.exportName_ ≠ "" ∧ p.2.localName_ ≠ "" ∧ p.2.localName_ = p.1 ∧
        p.2.importName_ = "" ∧ p.2.moduleRequestIdx_ = -1) ∧
    (∀ e ∈ recordImportExportX.indirectExportEntries_,
      e.exportName_ ≠ "" ∧ e.importName_ ≠ "" ∧ e.localName_ = "" ∧
        e.moduleRequestIdx_ ≠ -1) ∧
    (∀ e ∈ recordImportExportX.starExportEntries_,
      e.exportName_ = "" ∧ e.importName_ = "" ∧ e.localName_ = "" ∧
        e.moduleRequestIdx_ ≠ -1) ∧
    (∀ (E : ExportEntry) (res : Bool × Record),
      AddLocalExportEntry recordImportExportX E = some res →
        res.2.localExportEntries_ = recordImportExportX.localExportEntries_ ∨
          (E.localName_ ≠ "" ∧
            res.2.localExportEntries_ =
              ArenaMultiMap.insert E.localName_ E
                recordImportExportX.localExportEntries_))) :=
  ⟨reachable_recordImportExportX,
    C19_entry_shape_invariant recordImportExportX reachable_recordImportExportX⟩

/-- Claim C20: on a reachable record, `AddImportEntry` of a well-formed regular import runs
to its end and neither creates nor drops an export: the Local table and the Indirect
sequence have together as many entries as before, their export names are, up to order, those
of before, the new Local table is a sublist of the old one and the old Indirect sequence is
a prefix of the new one. -/
theorem C20_conversion_conserves_exports (r : Record) (I : ImportEntry) (hr : Reachable r)
    (hI : I.WF) :
    ∃ r', AddImportEntry r I = some r' ∧
      r'.localExportEntries_.length + r'.indirectExportEntries_.length =
        r.localExportEntries_.length + r.indirectExportEntries_.length ∧
      (exportNames r').Perm (exportNames r) ∧
      r'.localExportEntries_.Sublist r.localExportEntries_ ∧
      r.indirectExportEntries_ <+: r'.indirectExportEntries_ := by
  refine ⟨afterImport r I, AddImportEntry_total hr.shape hI, ?_,
    exportNames_afterImport_perm r I, ?_, ?_⟩
  · have h := (exportNames_afterImport_perm r I).length_eq
    unfold exportNames at h
    simpa using h
  · exact List.filter_sublist _
  · exact List.prefix_append _ _

/-- Witness of claim C20: `import {x}` on the record that holds the Local export `x`. -/
theorem C20_witness :
    (Reachable recordExportX ∧ importX.WF) ∧
    ∃ r', AddImportEntry recordExportX importX = some r' ∧
      r'.localExportEntries_.length + r'.indirectExportEntries_.length =
        recordExportX.localExportEntries_.length +
          recordExportX.indirectExportEntries_.length ∧
      (exportNames r').Perm (exportNames recordExportX) ∧
      r'.localExportEntries_.Sublist recordExportX.localExportEntries_ ∧
      recordExportX.indirectExportEntries_ <+: r'.indirectExportEntries_ :=
  ⟨⟨reachable_recordExportX, by decide⟩,
    C20_conversion_conserves_exports recordExportX importX reachable_recordExportX
      (by decide)⟩

end SourceTextModuleRecord
